import Mathlib

set_option autoImplicit false

/-!
Shallow embedding of the astrolabe-server graph engine
(`pkg/graph/types.go`), its processors (`pkg/processors/*.go`,
`BaseProcessor`) and the query-layer BFS expansion
(`Server.expandRelatedNodes`).

Representation conventions, fixed once for the whole file:

* Go `map[K]V` is represented by an association list `List (K × V)`
  together with the operations `mlookup` (first entry wins), `mset`
  (replace in place if the key is present, append otherwise — exactly
  the effect of `m[k] = v`) and `merase` (drop every entry with the
  key — the effect of `delete(m, k)`).  Iteration over a Go map is
  replaced by iteration over the association list; this fixes one of
  the orders Go may choose.
* Go slices of `*Node` inside the secondary indexes are represented by
  the nodes' UIDs: pointer identity in the source coincides with UID
  identity because every `*Node` stored in an index is the object
  stored in `Graph.nodes` under its UID.
* `int32` fields are represented by `Int`; timestamps by `Nat`.
* `klog` logging statements are effect-free and are dropped.
-/

namespace Astrolabe

/-- Unique identifier of a Kubernetes object (`types.UID`, a string in Go). -/
abbrev UID := String

section MapOps

variable {K V : Type} [DecidableEq K]

/-- Map read `m[k]`: value of the first entry with key `k`. -/
def mlookup : List (K × V) → K → Option V
  | [], _ => none
  | (k', v) :: rest, k => if k' = k then some v else mlookup rest k

/-- Map write `m[k] = v`: replace the first entry with key `k` in place,
append a new entry when the key is absent. -/
def mset : List (K × V) → K → V → List (K × V)
  | [], k, v => [(k, v)]
  | (k', v') :: rest, k, v =>
    if k' = k then (k, v) :: rest else (k', v') :: mset rest k v

/-- Map delete `delete(m, k)`: drop every entry with key `k`. -/
def merase : List (K × V) → K → List (K × V)
  | [], _ => []
  | (k', v') :: rest, k =>
    if k' = k then merase rest k else (k', v') :: merase rest k

/-- Keys of an association list. -/
def mkeys (m : List (K × V)) : List K := m.map Prod.fst

end MapOps

/-- Translation of `Graph.removeNodeFromSlice`: remove the first node with
the given UID from an index slice (slices are represented by UID lists). -/
def removeUID : List UID → UID → List UID
  | [], _ => []
  | x :: rest, u => if x = u then rest else x :: removeUID rest u

/-- Derived status of a resource (`ResourceStatus` string constants). -/
inductive ResourceStatus where
  | ready
  | error
  | pending
  | unknown
  deriving DecidableEq, Repr

/-- Edge types (`EdgeType` string constants in `types.go`). -/
inductive EdgeType where
  | owns
  | selects
  | endpoints
  | routesTo
  | mounts
  | binds
  | usesConfigmap
  | usesSecret
  | usesSA
  | scales
  deriving DecidableEq, Repr

/-- A typed directed relationship between two resources (`Edge`). -/
structure Edge where
  etype : EdgeType
  fromUID : UID
  toUID : UID
  metadata : List (String × String) := []
  deriving DecidableEq, Repr

/-- Group/version/kind triple (`schema.GroupVersionKind`). -/
structure GVK where
  group : String
  version : String
  kind : String
  deriving DecidableEq, Repr

/-- Reference key for the pending-edge tables (`RefKey`). -/
structure RefKey where
  gvk : GVK
  ns : String
  name : String
  deriving DecidableEq, Repr

/-- An edge waiting for its target to appear (`PendingEdge`). -/
structure PendingEdge where
  fromUID : UID
  targetRef : RefKey
  edgeType : EdgeType
  deriving DecidableEq, Repr

/-- An edge waiting for its source to appear (`ReversePendingEdge`). -/
structure ReversePendingEdge where
  toUID : UID
  sourceRef : RefKey
  edgeType : EdgeType
  deriving DecidableEq, Repr

/-- Replica counters of workload resources (`ReplicaInfo`, `int32` fields). -/
structure ReplicaInfo where
  desired : Int
  current : Int
  ready : Int
  available : Int
  deriving DecidableEq, Repr

/-- Simplified reference to another object (`ObjectReference`). -/
structure ObjectReference where
  kind : String := ""
  ns : String := ""
  name : String := ""
  uid : UID := ""
  deriving DecidableEq, Repr

/-- Kind-specific sparse metadata payload (`ResourceMetadata`).  Go zero
values stand in for unset fields. -/
structure ResourceMetadata where
  nodeName : String := ""
  image : String := ""
  restartCount : Int := 0
  replicas : Option ReplicaInfo := none
  volumeName : String := ""
  claimRef : Option ObjectReference := none
  clusterIP : String := ""
  serviceType : String := ""
  ingressClass : String := ""
  scaleTargetRef : Option ObjectReference := none
  minReplicas : Option Int := none
  maxReplicas : Int := 0
  currentReplicas : Int := 0
  desiredReplicas : Int := 0
  deriving DecidableEq, Repr

/-- A graph node (`Node`).  The Go field `Namespace` is called `ns` here
(`namespace` is a Lean keyword); `Annotations` is called `anns`.  The two
adjacency maps are keyed by the peer UID, exactly as in the source. -/
structure Node where
  uid : UID
  name : String
  ns : String
  kind : String
  apiVersion : String
  resourceVersion : String := ""
  labels : List (String × String) := []
  anns : List (String × String) := []
  creationTimestamp : Nat := 0
  status : ResourceStatus := .unknown
  statusMessage : String := ""
  helmChart : String := ""
  helmRelease : String := ""
  metadata : Option ResourceMetadata := none
  outgoingEdges : List (UID × Edge) := []
  incomingEdges : List (UID × Edge) := []
  deriving DecidableEq, Repr

/-- The in-memory resource graph (`Graph`).  The mutex is a concurrency
artifact with no sequential semantics and is dropped. -/
structure Graph where
  nodes : List (UID × Node) := []
  byNamespaceKind : List (String × List (String × List UID)) := []
  byHelmRelease : List (String × List UID) := []
  byLabel : List (String × List (String × List UID)) := []
  pendingEdges : List (RefKey × List PendingEdge) := []
  reversePendingEdges : List (RefKey × List ReversePendingEdge) := []
  deriving DecidableEq, Repr

/-- Translation of `NewGraph`. -/
def emptyGraph : Graph := {}

/-- The namespace key used by the indexes: empty namespace maps to the
reserved sentinel, as in `addToIndexes` / `removeFromIndexes`. -/
def nsKeyOf (n : Node) : String := if n.ns = "" then "_cluster" else n.ns

/-- Insertion into a two-level index (`byNamespaceKind[nsKey][kind] =
append(...)`, and identically `byLabel[key][value] = append(...)`). -/
def addTwoLevel (idx : List (String × List (String × List UID)))
    (k1 k2 : String) (u : UID) : List (String × List (String × List UID)) :=
  let inner := (mlookup idx k1).getD []
  mset idx k1 (mset inner k2 (((mlookup inner k2).getD []) ++ [u]))

/-- Removal from a two-level index, with the source's empty-key cleanup:
remove the first matching UID, delete the second-level key when its list
empties, delete the first-level key when the inner map empties. -/
def removeTwoLevel (idx : List (String × List (String × List UID)))
    (k1 k2 : String) (u : UID) : List (String × List (String × List UID)) :=
  match mlookup idx k1 with
  | none => idx
  | some inner =>
    let inner' :=
      match mlookup inner k2 with
      | none => inner
      | some l =>
        let l' := removeUID l u
        if l' = [] then merase inner k2 else mset inner k2 l'
    if inner' = [] then merase idx k1 else mset idx k1 inner'

/-- Insertion into the flat Helm-release index. -/
def addRelease (idx : List (String × List UID)) (rel : String) (u : UID) :
    List (String × List UID) :=
  mset idx rel (((mlookup idx rel).getD []) ++ [u])

/-- Removal from the flat Helm-release index, deleting emptied keys. -/
def removeRelease (idx : List (String × List UID)) (rel : String) (u : UID) :
    List (String × List UID) :=
  match mlookup idx rel with
  | none => idx
  | some l =>
    let l' := removeUID l u
    if l' = [] then merase idx rel else mset idx rel l'

/-- Translation of `Graph.addToIndexes`. -/
def addToIndexes (g : Graph) (node : Node) : Graph :=
  { g with
    byNamespaceKind := addTwoLevel g.byNamespaceKind (nsKeyOf node) node.kind node.uid
    byHelmRelease :=
      if node.helmRelease ≠ "" then
        addRelease g.byHelmRelease node.helmRelease node.uid
      else g.byHelmRelease
    byLabel := node.labels.foldl
      (fun acc kv => addTwoLevel acc kv.1 kv.2 node.uid) g.byLabel }

/-- Translation of `Graph.removeFromIndexes`. -/
def removeFromIndexes (g : Graph) (node : Node) : Graph :=
  { g with
    byNamespaceKind := removeTwoLevel g.byNamespaceKind (nsKeyOf node) node.kind node.uid
    byHelmRelease :=
      if node.helmRelease ≠ "" then
        removeRelease g.byHelmRelease node.helmRelease node.uid
      else g.byHelmRelease
    byLabel := node.labels.foldl
      (fun acc kv => removeTwoLevel acc kv.1 kv.2 node.uid) g.byLabel }

/-- The edge built for a drained forward pending entry. -/
def pendingEdgeFor (nodeUID : UID) (p : PendingEdge) : Edge :=
  { etype := p.edgeType, fromUID := p.fromUID, toUID := nodeUID }

/-- One iteration of the forward drain loop in
`processPendingEdgesForNode`: if the recorded source node exists, store
the edge in its outgoing map and in the new node's incoming map. -/
def applyPendingEdge (nodeUID : UID) (acc : List (UID × Node))
    (p : PendingEdge) : List (UID × Node) :=
  match mlookup acc p.fromUID with
  | none => acc
  | some fromNode =>
    let edge := pendingEdgeFor nodeUID p
    let acc1 := mset acc p.fromUID
      { fromNode with outgoingEdges := mset fromNode.outgoingEdges nodeUID edge }
    match mlookup acc1 nodeUID with
    | none => acc1
    | some nd => mset acc1 nodeUID
      { nd with incomingEdges := mset nd.incomingEdges p.fromUID edge }

/-- One iteration of the reverse drain loop: if the recorded target node
exists, store the edge in the new node's outgoing map and in the target's
incoming map. -/
def applyReversePendingEdge (nodeUID : UID) (acc : List (UID × Node))
    (rp : ReversePendingEdge) : List (UID × Node) :=
  match mlookup acc rp.toUID with
  | none => acc
  | some _ =>
    let edge : Edge := { etype := rp.edgeType, fromUID := nodeUID, toUID := rp.toUID }
    let acc1 :=
      match mlookup acc nodeUID with
      | none => acc
      | some nd => mset acc nodeUID
        { nd with outgoingEdges := mset nd.outgoingEdges rp.toUID edge }
    match mlookup acc1 rp.toUID with
    | none => acc1
    | some toNode => mset acc1 rp.toUID
      { toNode with incomingEdges := mset toNode.incomingEdges nodeUID edge }

/-- Reference matching used by the drain: namespace, kind and name must
agree; the GVK group/version is deliberately ignored. -/
def matchesRef (r : RefKey) (ns kind name : String) : Bool :=
  r.ns = ns && r.gvk.kind = kind && r.name = name

/-- Translation of `Graph.processPendingEdgesForNode`: drain every
pending (then reverse-pending) list whose key matches the node's
(namespace, kind, name), then delete the matched keys. -/
def processPendingEdgesForNode (g : Graph) (node : Node) : Graph :=
  let matched := g.pendingEdges.filter
    (fun kv => matchesRef kv.1 node.ns node.kind node.name)
  let nodes1 := matched.foldl
    (fun acc kv => kv.2.foldl (applyPendingEdge node.uid) acc) g.nodes
  let pending1 := (matched.map Prod.fst).foldl merase g.pendingEdges
  let g1 := { g with nodes := nodes1, pendingEdges := pending1 }
  let matchedR := g1.reversePendingEdges.filter
    (fun kv => matchesRef kv.1 node.ns node.kind node.name)
  let nodes2 := matchedR.foldl
    (fun acc kv => kv.2.foldl (applyReversePendingEdge node.uid) acc) g1.nodes
  let rev1 := (matchedR.map Prod.fst).foldl merase g1.reversePendingEdges
  { g1 with nodes := nodes2, reversePendingEdges := rev1 }

/-- Translation of `Graph.AddNode`: re-index, store the node, and drain
the pending tables only when the UID was not present before (`!isUpdate`).
The nil-map initialization of the source is a no-op here because the
adjacency maps of a `Node` are always present. -/
def addNode (g : Graph) (node : Node) : Graph :=
  let isUpdate := (mlookup g.nodes node.uid).isSome
  let g1 :=
    match mlookup g.nodes node.uid with
    | some oldNode => removeFromIndexes g oldNode
    | none => g
  let g2 := { g1 with nodes := mset g1.nodes node.uid node }
  let g3 := addToIndexes g2 node
  if isUpdate then g3 else processPendingEdgesForNode g3 node

/-- Translation of `Graph.RemoveNode`: detach the node from every peer's
adjacency map, un-index it, and delete it from the node map.  The pending
tables are not touched (faithfully to the source). -/
def removeNode (g : Graph) (uid : UID) : Graph :=
  match mlookup g.nodes uid with
  | none => g
  | some node =>
    let nodes1 := node.outgoingEdges.foldl (fun acc kv =>
      match mlookup acc kv.2.toUID with
      | some toNode => mset acc kv.2.toUID
        { toNode with incomingEdges := merase toNode.incomingEdges uid }
      | none => acc) g.nodes
    let nodes2 := node.incomingEdges.foldl (fun acc kv =>
      match mlookup acc kv.2.fromUID with
      | some fromNode => mset acc kv.2.fromUID
        { fromNode with outgoingEdges := merase fromNode.outgoingEdges uid }
      | none => acc) nodes1
    let g2 := removeFromIndexes { g with nodes := nodes2 } node
    { g2 with nodes := merase g2.nodes uid }

/-- Translation of `Graph.GetNode`. -/
def getNode (g : Graph) (uid : UID) : Option Node := mlookup g.nodes uid

/-- Translation of `Graph.AddEdge`: succeeds iff both endpoints exist, in
which case the edge is upserted into both adjacency maps; the returned
boolean is `true` exactly when both endpoints exist. -/
def addEdge (g : Graph) (edge : Edge) : Graph × Bool :=
  match mlookup g.nodes edge.fromUID, mlookup g.nodes edge.toUID with
  | some fromNode, some _ =>
    let nodes1 := mset g.nodes edge.fromUID
      { fromNode with outgoingEdges := mset fromNode.outgoingEdges edge.toUID edge }
    let nodes2 :=
      match mlookup nodes1 edge.toUID with
      | some toNode => mset nodes1 edge.toUID
        { toNode with incomingEdges := mset toNode.incomingEdges edge.fromUID edge }
      | none => nodes1
    ({ g with nodes := nodes2 }, true)
  | _, _ => (g, false)

/-- Translation of `Graph.RemoveEdge`. -/
def removeEdge (g : Graph) (fromUID toUID : UID) : Graph :=
  let nodes1 :=
    match mlookup g.nodes fromUID with
    | some fromNode => mset g.nodes fromUID
      { fromNode with outgoingEdges := merase fromNode.outgoingEdges toUID }
    | none => g.nodes
  let nodes2 :=
    match mlookup nodes1 toUID with
    | some toNode => mset nodes1 toUID
      { toNode with incomingEdges := merase toNode.incomingEdges fromUID }
    | none => nodes1
  { g with nodes := nodes2 }

/-- Translation of `Graph.AddPendingEdge`: unconditionally append to the
pending table (no existence checks). -/
def addPendingEdge (g : Graph) (fromUID : UID) (targetRef : RefKey)
    (edgeType : EdgeType) : Graph :=
  let entry : PendingEdge :=
    { fromUID := fromUID, targetRef := targetRef, edgeType := edgeType }
  let l := ((mlookup g.pendingEdges targetRef).getD []) ++ [entry]
  { g with pendingEdges := mset g.pendingEdges targetRef l }

/-- Translation of `Graph.AddReversePendingEdge`. -/
def addReversePendingEdge (g : Graph) (toUID : UID) (sourceRef : RefKey)
    (edgeType : EdgeType) : Graph :=
  let entry : ReversePendingEdge :=
    { toUID := toUID, sourceRef := sourceRef, edgeType := edgeType }
  let l := ((mlookup g.reversePendingEdges sourceRef).getD []) ++ [entry]
  { g with reversePendingEdges := mset g.reversePendingEdges sourceRef l }

/-- Translation of `Graph.GetNodesByNamespaceKind` (the returned slice
copy is the dereferenced UID list). -/
def getNodesByNamespaceKind (g : Graph) (ns kind : String) : List Node :=
  let nsKey := if ns = "" then "_cluster" else ns
  match mlookup g.byNamespaceKind nsKey with
  | none => []
  | some kindMap =>
    match mlookup kindMap kind with
    | none => []
    | some uids => uids.filterMap (fun u => mlookup g.nodes u)

/-!
Processor layer (`pkg/processors`).  `EventType` and the helpers of
`BaseProcessor` are translated directly; processors are functions from a
graph and a typed object to the updated graph.
-/

/-- Event type delivered by the informer callbacks (`EventType`). -/
inductive EventType where
  | add
  | update
  | delete
  deriving DecidableEq, Repr

/-- An entry of `metav1.OwnerReference`; only the fields read by the
processors are kept. -/
structure OwnerReference where
  kind : String
  name : String
  uid : UID
  deriving DecidableEq, Repr

/-- The standard object meta-fields read by `NewNodeFromObject`. -/
structure ObjectMeta where
  uid : UID
  name : String
  ns : String
  resourceVersion : String := ""
  labels : List (String × String) := []
  anns : List (String × String) := []
  creationTimestamp : Nat := 0
  ownerReferences : List OwnerReference := []
  deriving DecidableEq, Repr

/-- Translation of `NewNodeFromObject`: build the node skeleton and pull
the Helm chart/release out of the two well-known annotation keys. -/
def newNodeFromObject (m : ObjectMeta) (kind apiVersion : String) : Node :=
  { uid := m.uid
    name := m.name
    ns := m.ns
    kind := kind
    apiVersion := apiVersion
    resourceVersion := m.resourceVersion
    labels := m.labels
    anns := m.anns
    creationTimestamp := m.creationTimestamp
    status := .unknown
    helmChart := (mlookup m.anns "helm.sh/chart").getD ""
    helmRelease := (mlookup m.anns "meta.helm.sh/release-name").getD "" }

/-- Translation of `BaseProcessor.createOwnershipEdges`: for each owner
reference, add an `owns` edge only when the owner UID is already in the
graph; otherwise only a log line is produced and nothing is recorded. -/
def createOwnershipEdges (g : Graph) (node : Node)
    (ownerRefs : List OwnerReference) : Graph :=
  ownerRefs.foldl (fun g owner =>
    match getNode g owner.uid with
    | some _ =>
      (addEdge g { etype := .owns, fromUID := owner.uid, toUID := node.uid }).1
    | none => g) g

/-- Translation of `BaseProcessor.findNodeByNamespaceKindName`. -/
def findNodeByNamespaceKindName (g : Graph) (ns kind name : String) :
    Option Node :=
  (getNodesByNamespaceKind g ns kind).find? (fun n => n.name = name)

/-- Translation of `BaseProcessor.createEdgeIfNodeExists`. -/
def createEdgeIfNodeExists (g : Graph) (fromUID toUID : UID)
    (edgeType : EdgeType) : Graph × Bool :=
  addEdge g { etype := edgeType, fromUID := fromUID, toUID := toUID }

/-- Translation of `matchesSelector`. -/
def matchesSelector (labels selector : List (String × String)) : Bool :=
  selector.all (fun kv => (mlookup labels kv.1).getD "" = kv.2)

/-- Translation of `BaseProcessor.findNodesByLabelSelector`. -/
def findNodesByLabelSelector (g : Graph) (ns kind : String)
    (selector : List (String × String)) : List Node :=
  let nodes := getNodesByNamespaceKind g ns kind
  if selector = [] then nodes
  else nodes.filter (fun n => matchesSelector n.labels selector)

/-- Translation of `BaseProcessor.handleDelete`. -/
def handleDelete (g : Graph) (uid : UID) : Graph := removeNode g uid

/-!
Model of the `corev1.Pod` fields read by `PodProcessor` and
`createConfigMapSecretEdges`.  Optional pointers become `Option`.
-/

/-- A pod volume: at most one of the three sources read by the code
(`PersistentVolumeClaim.ClaimName`, `ConfigMap.Name`,
`Secret.SecretName`). -/
structure Volume where
  persistentVolumeClaim : Option String := none
  configMap : Option String := none
  secret : Option String := none
  deriving DecidableEq, Repr

/-- An `envFrom` entry (`ConfigMapRef.Name` / `SecretRef.Name`). -/
structure EnvFromSource where
  configMapRef : Option String := none
  secretRef : Option String := none
  deriving DecidableEq, Repr

/-- An `env[].valueFrom` entry (`ConfigMapKeyRef.Name` /
`SecretKeyRef.Name`); `none` models a nil `ValueFrom`. -/
structure EnvVarSource where
  configMapKeyRef : Option String := none
  secretKeyRef : Option String := none
  deriving DecidableEq, Repr

/-- A container: image plus the env references read by the code. -/
structure Container where
  image : String := ""
  envFrom : List EnvFromSource := []
  env : List (Option EnvVarSource) := []
  deriving DecidableEq, Repr

/-- The pod-spec fields read by the processors. -/
structure PodSpec where
  nodeName : String := ""
  serviceAccountName : String := ""
  volumes : List Volume := []
  containers : List Container := []
  deriving DecidableEq, Repr

/-- The pod phase (`corev1.PodPhase` string), with a catch-all for other
values. -/
inductive PodPhase where
  | running
  | pendingPhase
  | succeeded
  | failed
  | unknownPhase
  | other (s : String)
  deriving DecidableEq, Repr

/-- A container status: readiness plus the waiting/terminated reasons. -/
structure ContainerStatus where
  ready : Bool := false
  waitingReason : Option String := none
  terminatedReason : Option String := none
  restartCount : Int := 0
  deriving DecidableEq, Repr

/-- The pod status fields read by `getPodStatus`. -/
structure PodStatus where
  phase : PodPhase := .other ""
  containerStatuses : List ContainerStatus := []
  deriving DecidableEq, Repr

/-- A `corev1.Pod` restricted to the fields the processor reads. -/
structure Pod where
  meta : ObjectMeta
  spec : PodSpec := {}
  status : PodStatus := {}
  deriving DecidableEq, Repr

/-- The scan over container statuses inside the `PodRunning` branch of
`getPodStatus`: the first non-ready container with a waiting state gives
Pending, with a terminated state gives Error; otherwise keep scanning. -/
def scanContainerStatuses : List ContainerStatus →
    Option (ResourceStatus × String)
  | [] => none
  | cs :: rest =>
    if cs.ready then scanContainerStatuses rest
    else
      match cs.waitingReason with
      | some r => some (.pending, "Container not ready: " ++ r)
      | none =>
        match cs.terminatedReason with
        | some r => some (.error, "Container terminated: " ++ r)
        | none => scanContainerStatuses rest

/-- Translation of `PodProcessor.getPodStatus`. -/
def getPodStatus (pod : Pod) : ResourceStatus × String :=
  match pod.status.phase with
  | .running =>
    match scanContainerStatuses pod.status.containerStatuses with
    | some res => res
    | none => (.ready, "Pod is running")
  | .pendingPhase => (.pending, "Pod is pending")
  | .succeeded => (.ready, "Pod succeeded")
  | .failed => (.error, "Pod failed")
  | .unknownPhase => (.unknown, "Pod status unknown")
  | .other s => (.unknown, "Unknown phase: " ++ s)

/-- Translation of `PodProcessor.getTotalRestartCount`. -/
def getTotalRestartCount (pod : Pod) : Int :=
  pod.status.containerStatuses.foldl (fun acc cs => acc + cs.restartCount) 0

/-- The ConfigMap edge attempt shared by the branches of
`createConfigMapSecretEdges`: emit `uses-configmap` only when the named
ConfigMap is found in the graph. -/
def cmEdgeIfFound (g : Graph) (node : Node) (cmName : Option String) : Graph :=
  match cmName with
  | some name =>
    match findNodeByNamespaceKindName g node.ns "ConfigMap" name with
    | some cmNode => (createEdgeIfNodeExists g node.uid cmNode.uid .usesConfigmap).1
    | none => g
  | none => g

/-- The Secret edge attempt shared by the branches of
`createConfigMapSecretEdges`. -/
def secretEdgeIfFound (g : Graph) (node : Node) (secretName : Option String) :
    Graph :=
  match secretName with
  | some name =>
    match findNodeByNamespaceKindName g node.ns "Secret" name with
    | some secretNode => (createEdgeIfNodeExists g node.uid secretNode.uid .usesSecret).1
    | none => g
  | none => g

/-- One volume iteration of `createConfigMapSecretEdges`. -/
def cmSecretVolumeStep (node : Node) (g : Graph) (volume : Volume) : Graph :=
  secretEdgeIfFound (cmEdgeIfFound g node volume.configMap) node volume.secret

/-- One `envFrom` iteration of `createConfigMapSecretEdges`. -/
def cmSecretEnvFromStep (node : Node) (g : Graph) (envFrom : EnvFromSource) :
    Graph :=
  secretEdgeIfFound (cmEdgeIfFound g node envFrom.configMapRef) node envFrom.secretRef

/-- One `env` iteration of `createConfigMapSecretEdges` (nil `ValueFrom`
is skipped). -/
def cmSecretEnvStep (node : Node) (g : Graph) (envVar : Option EnvVarSource) :
    Graph :=
  match envVar with
  | none => g
  | some valueFrom =>
    secretEdgeIfFound (cmEdgeIfFound g node valueFrom.configMapKeyRef) node
      valueFrom.secretKeyRef

/-- One container iteration of `createConfigMapSecretEdges`: the
`envFrom` loop followed by the `env` loop. -/
def cmSecretContainerStep (node : Node) (g : Graph) (container : Container) :
    Graph :=
  container.env.foldl (cmSecretEnvStep node)
    (container.envFrom.foldl (cmSecretEnvFromStep node) g)

/-- Translation of `createConfigMapSecretEdges`: edges to ConfigMaps and
Secrets referenced from volumes, `envFrom`, and `env[].valueFrom` — each
one created only when the peer is found in the graph. -/
def createConfigMapSecretEdges (g : Graph) (node : Node) (podSpec : PodSpec) :
    Graph :=
  podSpec.containers.foldl (cmSecretContainerStep node)
    (podSpec.volumes.foldl (cmSecretVolumeStep node) g)

/-- The `spec.serviceAccountName` edge block shared verbatim by the Pod
and workload processors: emit `uses-sa` only when the ServiceAccount is
found in the graph. -/
def serviceAccountEdge (g : Graph) (ns saName : String) (node : Node) : Graph :=
  if saName ≠ "" then
    match findNodeByNamespaceKindName g ns "ServiceAccount" saName with
    | some saNode => (createEdgeIfNodeExists g node.uid saNode.uid .usesSA).1
    | none => g
  else g

/-- One volume iteration of the pod → PVC `mounts` loop in
`PodProcessor.Process`: emit `mounts` only when the claimed PVC is found
in the graph. -/
def podPvcStep (ns : String) (node : Node) (g : Graph) (volume : Volume) :
    Graph :=
  match volume.persistentVolumeClaim with
  | some claimName =>
    match findNodeByNamespaceKindName g ns "PersistentVolumeClaim" claimName with
    | some pvcNode => (createEdgeIfNodeExists g node.uid pvcNode.uid .mounts).1
    | none => g
  | none => g

/-- The node `PodProcessor.Process` builds before upserting: skeleton,
derived status, and the Pod-specific metadata payload. -/
def podNodeOf (pod : Pod) : Node :=
  let node0 := newNodeFromObject pod.meta "Pod" "v1"
  let statusPair := getPodStatus pod
  let image :=
    match pod.spec.containers with
    | c :: _ => c.image
    | [] => ""
  let md : ResourceMetadata :=
    { nodeName := pod.spec.nodeName
      restartCount := getTotalRestartCount pod
      image := image }
  { node0 with
    status := statusPair.1, statusMessage := statusPair.2, metadata := some md }

/-- Translation of `PodProcessor.Process` (ADD/UPDATE/DELETE path): build
the node, upsert it, then emit ownership, PVC-mount, ConfigMap/Secret and
ServiceAccount edges — each only when the peer already exists. -/
def processPod (g : Graph) (pod : Pod) (eventType : EventType) : Graph :=
  if eventType = .delete then handleDelete g pod.meta.uid
  else
    let node := podNodeOf pod
    let g := addNode g node
    let g := createOwnershipEdges g node pod.meta.ownerReferences
    let g := pod.spec.volumes.foldl (podPvcStep pod.meta.ns node) g
    let g := createConfigMapSecretEdges g node pod.spec
    serviceAccountEdge g pod.meta.ns pod.spec.serviceAccountName node

/-!
Model of the `appsv1.ReplicaSet` fields read by `ReplicaSetProcessor`.
-/

/-- The ReplicaSet spec fields read by the processor: the optional
desired-replica pointer and the pod template's spec. -/
structure ReplicaSetSpec where
  replicas : Option Int := none
  template : PodSpec := {}
  deriving DecidableEq, Repr

/-- The ReplicaSet status fields read by the processor. -/
structure ReplicaSetStatus where
  replicas : Int := 0
  readyReplicas : Int := 0
  availableReplicas : Int := 0
  deriving DecidableEq, Repr

/-- An `appsv1.ReplicaSet` restricted to the fields the processor reads. -/
structure ReplicaSet where
  meta : ObjectMeta
  spec : ReplicaSetSpec := {}
  status : ReplicaSetStatus := {}
  deriving DecidableEq, Repr

/-- Translation of `getInt32Value`. -/
def getInt32Value (ptr : Option Int) (defaultValue : Int) : Int :=
  ptr.getD defaultValue

/-- Translation of `ReplicaSetProcessor.getReplicaSetStatus`. -/
def getReplicaSetStatus (rs : ReplicaSet) : ResourceStatus × String :=
  let desired := getInt32Value rs.spec.replicas 1
  let ready := rs.status.readyReplicas
  if desired = 0 ∧ ready = 0 then (.ready, "Scaled to zero (0/0)")
  else if ready = desired then (.ready, "All replicas ready")
  else if ready = 0 ∧ desired > 0 then (.error, "No replicas ready")
  else (.pending, "Partially ready")

/-- The node `ReplicaSetProcessor.Process` builds before upserting. -/
def rsNodeOf (rs : ReplicaSet) : Node :=
  let node0 := newNodeFromObject rs.meta "ReplicaSet" "apps/v1"
  let statusPair := getReplicaSetStatus rs
  let replicaInfo : ReplicaInfo :=
    { desired := getInt32Value rs.spec.replicas 1
      current := rs.status.replicas
      ready := rs.status.readyReplicas
      available := rs.status.availableReplicas }
  let image :=
    match rs.spec.template.containers with
    | c :: _ => c.image
    | [] => ""
  let md : ResourceMetadata := { replicas := some replicaInfo, image := image }
  { node0 with
    status := statusPair.1, statusMessage := statusPair.2, metadata := some md }

/-- Translation of `ReplicaSetProcessor.Process`: on DELETE remove the
node; an inactive ReplicaSet (`status.Replicas == 0` and
`status.ReadyReplicas == 0`) is skipped with no graph mutation at all;
otherwise upsert the node and emit ownership, ConfigMap/Secret and
ServiceAccount edges. -/
def processReplicaSet (g : Graph) (rs : ReplicaSet) (eventType : EventType) :
    Graph :=
  if eventType = .delete then handleDelete g rs.meta.uid
  else if rs.status.replicas = 0 ∧ rs.status.readyReplicas = 0 then g
  else
    let node := rsNodeOf rs
    let g := addNode g node
    let g := createOwnershipEdges g node rs.meta.ownerReferences
    let g := createConfigMapSecretEdges g node rs.spec.template
    serviceAccountEdge g rs.meta.ns rs.spec.template.serviceAccountName node

/-!
Query layer: `Server.expandRelatedNodes` (BFS with namespace filter,
release isolation and a kind allow-list).  The unbounded `for len(queue) >
0` loop becomes fuel-indexed recursion; the fuel chosen by the wrapper is
irrelevant to the safety properties proved below.
-/

/-- ASCII lower-casing of a character, the effect of `strings.ToLower` on
the ASCII kind names compared here (written out so that it evaluates by
kernel reduction). -/
def lowerChar (c : Char) : Char :=
  if 65 ≤ c.toNat ∧ c.toNat ≤ 90 then Char.ofNat (c.toNat + 32) else c

/-- Translation of `strings.ToLower` for the ASCII strings involved. -/
def lowerStr (s : String) : String := ⟨s.data.map lowerChar⟩

/-- The lowercased kind allow-list of `expandRelatedNodes`. -/
def allowedKindsList : List String :=
  ["pod", "replicaset", "endpointslice", "configmap", "secret",
   "serviceaccount", "service", "persistentvolume", "persistentvolumeclaim",
   "storageclass"]

/-- The namespace filter of `expandRelatedNodes`: an empty filter or an
empty (cluster-scoped) node namespace always passes. -/
def withinNamespaceF (ns : String) (node : Node) : Bool :=
  ns = "" || node.ns = "" || node.ns = ns

/-- Neighbour collection of one BFS step: resolve the targets of the
outgoing edges and the sources of the incoming edges. -/
def neighboursOf (g : Graph) (current : Node) : List Node :=
  current.outgoingEdges.filterMap (fun kv => getNode g kv.2.toUID) ++
  current.incomingEdges.filterMap (fun kv => getNode g kv.2.fromUID)

/-- Filtering and accumulation of one neighbour, in the source's check
order: seen, namespace, unmanaged-neighbour rule, foreign-release rule,
kind allow-list. -/
def expandVisit (releaseName : String) (releaseNodes : List UID) (ns : String)
    (current : Node) (acc : List UID × List Node × List Node) (nb : Node) :
    List UID × List Node × List Node :=
  let (seen, queue, ordered) := acc
  if nb.uid ∈ seen then acc
  else if ¬ withinNamespaceF ns nb then acc
  else if releaseName ≠ "" ∧ nb.helmRelease = "" ∧ current.uid ∉ releaseNodes then acc
  else if releaseName ≠ "" ∧ nb.helmRelease ≠ "" ∧ nb.helmRelease ≠ releaseName then acc
  else if lowerStr nb.kind ∉ allowedKindsList then acc
  else (seen ++ [nb.uid], queue ++ [nb], ordered ++ [nb])

/-- The BFS loop of `expandRelatedNodes`, with fuel standing in for the
`for len(queue) > 0` loop. -/
def expandLoop (g : Graph) (ns releaseName : String) (releaseNodes : List UID) :
    Nat → List UID → List Node → List Node → List Node
  | 0, _, _, ordered => ordered
  | _ + 1, _, [], ordered => ordered
  | fuel + 1, seen, current :: rest, ordered =>
    let step := (neighboursOf g current).foldl
      (expandVisit releaseName releaseNodes ns current) (seen, rest, ordered)
    expandLoop g ns releaseName releaseNodes fuel step.1 step.2.1 step.2.2

/-- Translation of `Server.expandRelatedNodes`. -/
def expandRelatedNodes (g : Graph) (base : List Node) (ns releaseName : String) :
    List Node :=
  if base = [] then base
  else
    let releaseNodes := (base.filter
      (fun n => releaseName ≠ "" ∧ n.helmRelease = releaseName)).map Node.uid
    let init := base.foldl (fun (acc : List UID × List Node × List Node) node =>
      let (seen, queue, ordered) := acc
      if node.uid ∈ seen then acc
      else (seen ++ [node.uid], queue ++ [node], ordered ++ [node]))
      ([], [], [])
    expandLoop g ns releaseName releaseNodes
      (2 * (g.nodes.length + base.length) + 1) init.1 init.2.1 init.2.2

/-!
Laws of the association-list map operations.
-/

section MapLemmas

variable {K V : Type} [DecidableEq K]

theorem mlookup_mset (m : List (K × V)) (k k' : K) (v : V) :
    mlookup (mset m k v) k' = if k = k' then some v else mlookup m k' := by
  induction m with
  | nil =>
    by_cases h : k = k' <;> simp [mset, mlookup, h]
  | cons hd tl ih =>
    obtain ⟨a, b⟩ := hd
    by_cases h1 : a = k
    · subst h1
      by_cases h2 : a = k' <;> simp [mset, mlookup, h2]
    · by_cases h2 : a = k'
      · subst h2
        have hne : k ≠ a := fun h => h1 h.symm
        simp [mset, mlookup, h1, hne]
      · simp [mset, mlookup, h1, h2, ih]

theorem mlookup_mset_self (m : List (K × V)) (k : K) (v : V) :
    mlookup (mset m k v) k = some v := by
  simp [mlookup_mset]

theorem mlookup_mset_ne (m : List (K × V)) (k k' : K) (v : V) (h : k ≠ k') :
    mlookup (mset m k v) k' = mlookup m k' := by
  simp [mlookup_mset, h]

theorem mlookup_merase (m : List (K × V)) (k k' : K) :
    mlookup (merase m k) k' = if k = k' then none else mlookup m k' := by
  induction m with
  | nil =>
    by_cases h : k = k' <;> simp [merase, mlookup, h]
  | cons hd tl ih =>
    obtain ⟨a, b⟩ := hd
    by_cases h1 : a = k
    · subst h1
      by_cases h2 : a = k'
      · subst h2
        simp only [merase, if_pos rfl]
        simpa using ih
      · simp [merase, mlookup, h2, ih]
    · by_cases h2 : a = k'
      · subst h2
        have hne : k ≠ a := fun h => h1 h.symm
        simp [merase, mlookup, h1, hne]
      · simp [merase, mlookup, h1, h2, ih]

theorem mset_of_lookup_none (m : List (K × V)) (k : K) (v : V)
    (h : mlookup m k = none) : mset m k v = m ++ [(k, v)] := by
  induction m with
  | nil => simp [mset]
  | cons hd tl ih =>
    obtain ⟨a, b⟩ := hd
    by_cases h1 : a = k
    · simp [mlookup, h1] at h
    · simp [mlookup, h1] at h
      simp [mset, h1, ih h]

theorem mset_of_lookup_some (m : List (K × V)) (k : K) (v : V)
    (h : mlookup m k = some v) : mset m k v = m := by
  induction m with
  | nil => simp [mlookup] at h
  | cons hd tl ih =>
    obtain ⟨a, b⟩ := hd
    by_cases h1 : a = k
    · subst h1
      simp [mlookup] at h
      simp [mset, h]
    · simp [mlookup, h1] at h
      simp [mset, h1, ih h]

theorem merase_of_lookup_none (m : List (K × V)) (k : K)
    (h : mlookup m k = none) : merase m k = m := by
  induction m with
  | nil => rfl
  | cons hd tl ih =>
    obtain ⟨a, b⟩ := hd
    by_cases h1 : a = k
    · simp [mlookup, h1] at h
    · simp [mlookup, h1] at h
      simp [merase, h1, ih h]

theorem mem_of_mem_merase {m : List (K × V)} {k : K} {kv : K × V}
    (h : kv ∈ merase m k) : kv ∈ m := by
  induction m with
  | nil => simp [merase] at h
  | cons hd tl ih =>
    obtain ⟨a, b⟩ := hd
    by_cases h1 : a = k
    · simp [merase, h1] at h
      exact List.mem_cons_of_mem _ (ih h)
    · simp [merase, h1] at h
      rcases h with h | h
      · simp [h]
      · exact List.mem_cons_of_mem _ (ih h)

theorem mem_of_mlookup {m : List (K × V)} {k : K} {v : V}
    (h : mlookup m k = some v) : (k, v) ∈ m := by
  induction m with
  | nil => simp [mlookup] at h
  | cons hd tl ih =>
    obtain ⟨a, b⟩ := hd
    by_cases h1 : a = k
    · subst h1
      simp [mlookup] at h
      simp [h]
    · simp [mlookup, h1] at h
      exact List.mem_cons_of_mem _ (ih h)

theorem mlookup_append (m1 m2 : List (K × V)) (k : K) :
    mlookup (m1 ++ m2) k =
      match mlookup m1 k with
      | some v => some v
      | none => mlookup m2 k := by
  induction m1 with
  | nil => simp [mlookup]
  | cons hd tl ih =>
    obtain ⟨a, b⟩ := hd
    by_cases h1 : a = k <;> simp [mlookup, h1, ih]

theorem mlookup_foldl_merase_none (ks : List K) (m : List (K × V)) (k : K)
    (h : mlookup m k = none) : mlookup (ks.foldl merase m) k = none := by
  induction ks generalizing m with
  | nil => simpa using h
  | cons hd tl ih =>
    simp only [List.foldl_cons]
    apply ih
    rw [mlookup_merase]
    split <;> simp [h]

theorem mlookup_foldl_merase_mem (ks : List K) (m : List (K × V)) (k : K)
    (h : k ∈ ks) : mlookup (ks.foldl merase m) k = none := by
  induction ks generalizing m with
  | nil => simp at h
  | cons hd tl ih =>
    rcases List.mem_cons.mp h with h | h
    · subst h
      simp only [List.foldl_cons]
      apply mlookup_foldl_merase_none
      rw [mlookup_merase]
      simp
    · exact ih _ h

theorem mem_foldl_merase (ks : List K) (m : List (K × V)) (kv : K × V)
    (h : kv ∈ ks.foldl merase m) : kv ∈ m := by
  induction ks generalizing m with
  | nil => simpa using h
  | cons hd tl ih =>
    simp only [List.foldl_cons] at h
    exact mem_of_mem_merase (ih _ h)

theorem mem_mset {m : List (K × V)} {k : K} {v : V} {kv : K × V}
    (h : kv ∈ mset m k v) : kv ∈ m ∨ kv = (k, v) := by
  induction m with
  | nil => simp [mset] at h; simp [h]
  | cons hd tl ih =>
    by_cases h1 : hd.1 = k
    · simp [mset, h1] at h
      rcases h with h | h
      · right; exact h
      · left; exact List.mem_cons_of_mem hd h
    · simp [mset, h1] at h
      rcases h with h | h
      · left; simp [h]
      · rcases ih h with h | h
        · left; exact List.mem_cons_of_mem hd h
        · right; exact h

theorem count_removeUID_self (l : List UID) (u : UID) :
    (removeUID l u).count u = l.count u - 1 := by
  induction l with
  | nil => rfl
  | cons hd tl ih =>
    by_cases h : hd = u
    · subst h
      simp [removeUID, List.count_cons]
    · simp [removeUID, h, List.count_cons, ih]

theorem count_removeUID_ne (l : List UID) (u w : UID) (h : u ≠ w) :
    (removeUID l u).count w = l.count w := by
  induction l with
  | nil => rfl
  | cons hd tl ih =>
    by_cases h1 : hd = u
    · subst h1
      simp [removeUID, List.count_cons, h, Ne.symm h]
    · simp [removeUID, h1, List.count_cons, ih]

theorem removeUID_append_self (l : List UID) (u : UID) (h : u ∉ l) :
    removeUID (l ++ [u]) u = l := by
  induction l with
  | nil => simp [removeUID]
  | cons hd tl ih =>
    simp at h
    have hne : hd ≠ u := Ne.symm h.1
    simp [removeUID, hne, ih h.2]

theorem count_append (l1 l2 : List UID) (u : UID) :
    (l1 ++ l2).count u = l1.count u + l2.count u := List.count_append u l1 l2

end MapLemmas

/-!
Projection lemmas: which graph components each operation leaves alone.
-/

@[simp] theorem addToIndexes_nodes (g : Graph) (n : Node) :
    (addToIndexes g n).nodes = g.nodes := rfl

@[simp] theorem addToIndexes_pendingEdges (g : Graph) (n : Node) :
    (addToIndexes g n).pendingEdges = g.pendingEdges := rfl

@[simp] theorem addToIndexes_reversePendingEdges (g : Graph) (n : Node) :
    (addToIndexes g n).reversePendingEdges = g.reversePendingEdges := rfl

@[simp] theorem removeFromIndexes_nodes (g : Graph) (n : Node) :
    (removeFromIndexes g n).nodes = g.nodes := rfl

@[simp] theorem removeFromIndexes_pendingEdges (g : Graph) (n : Node) :
    (removeFromIndexes g n).pendingEdges = g.pendingEdges := rfl

@[simp] theorem removeFromIndexes_reversePendingEdges (g : Graph) (n : Node) :
    (removeFromIndexes g n).reversePendingEdges = g.reversePendingEdges := rfl

@[simp] theorem addEdge_pendingEdges (g : Graph) (e : Edge) :
    (addEdge g e).1.pendingEdges = g.pendingEdges := by
  unfold addEdge
  split <;> rfl

@[simp] theorem addEdge_reversePendingEdges (g : Graph) (e : Edge) :
    (addEdge g e).1.reversePendingEdges = g.reversePendingEdges := by
  unfold addEdge
  split <;> rfl

@[simp] theorem addEdge_byNamespaceKind (g : Graph) (e : Edge) :
    (addEdge g e).1.byNamespaceKind = g.byNamespaceKind := by
  unfold addEdge
  split <;> rfl

@[simp] theorem removeNode_pendingEdges (g : Graph) (u : UID) :
    (removeNode g u).pendingEdges = g.pendingEdges := by
  unfold removeNode
  split <;> rfl

@[simp] theorem removeNode_reversePendingEdges (g : Graph) (u : UID) :
    (removeNode g u).reversePendingEdges = g.reversePendingEdges := by
  unfold removeNode
  split <;> rfl

theorem createEdgeIfNodeExists_pendingEdges (g : Graph) (f t : UID)
    (et : EdgeType) : (createEdgeIfNodeExists g f t et).1.pendingEdges =
      g.pendingEdges := by
  unfold createEdgeIfNodeExists
  simp

theorem createEdgeIfNodeExists_reversePendingEdges (g : Graph) (f t : UID)
    (et : EdgeType) : (createEdgeIfNodeExists g f t et).1.reversePendingEdges =
      g.reversePendingEdges := by
  unfold createEdgeIfNodeExists
  simp

/-!
Concrete fixtures shared by several witnesses and counterexamples.
-/

/-- A Service node used in concrete scenarios. -/
def nodeSvcA : Node :=
  { uid := "a", name := "svc-a", ns := "demo", kind := "Service", apiVersion := "v1" }

/-- A Pod node used in concrete scenarios. -/
def nodePodB : Node :=
  { uid := "b", name := "pod-b", ns := "demo", kind := "Pod", apiVersion := "v1" }

/-- A `selects` edge between the two fixture nodes. -/
def edgeAB : Edge := { etype := .selects, fromUID := "a", toUID := "b" }

/-- Graph holding the two fixture nodes. -/
def graphAB : Graph := addNode (addNode emptyGraph nodeSvcA) nodePodB

/-- Graph holding the two fixture nodes and the edge between them. -/
def graphABe : Graph := (addEdge graphAB edgeAB).1

/-- C8: `add_edge` succeeds and upserts into both adjacency maps iff both
endpoints exist, returning false and leaving the graph unchanged when
either endpoint is absent.  The returned boolean is true exactly when
both endpoints exist — the source returns `true` regardless of whether an
identical edge was already present, so the boolean reports upsert
success, not edge novelty. -/
theorem claim_C8_addEdge_spec (g : Graph) (e : Edge) :
    ((mlookup g.nodes e.fromUID).isSome = true →
     (mlookup g.nodes e.toUID).isSome = true →
      (addEdge g e).2 = true ∧
      (∃ fn, mlookup (addEdge g e).1.nodes e.fromUID = some fn ∧
        mlookup fn.outgoingEdges e.toUID = some e) ∧
      (∃ tn, mlookup (addEdge g e).1.nodes e.toUID = some tn ∧
        mlookup tn.incomingEdges e.fromUID = some e)) ∧
    (¬ ((mlookup g.nodes e.fromUID).isSome = true ∧
        (mlookup g.nodes e.toUID).isSome = true) →
      addEdge g e = (g, false)) := by
  constructor
  · intro hf ht
    rcases hfs : mlookup g.nodes e.fromUID with _ | fn
    · rw [hfs] at hf; simp at hf
    rcases hts : mlookup g.nodes e.toUID with _ | tn
    · rw [hts] at ht; simp at ht
    refine ⟨?_, ?_, ?_⟩
    · simp only [addEdge, hfs, hts]
    · simp only [addEdge, hfs, hts]
      split
      · rename_i toNode heq
        rw [mlookup_mset] at heq
        by_cases hft : e.fromUID = e.toUID
        · rw [if_pos hft] at heq
          injection heq with heq
          refine ⟨{ toNode with
              incomingEdges := mset toNode.incomingEdges e.fromUID e }, ?_, ?_⟩
          · rw [show e.fromUID = e.toUID from hft]
            exact mlookup_mset_self _ _ _
          · rw [← heq]
            exact mlookup_mset_self _ _ _
        · refine ⟨{ fn with
              outgoingEdges := mset fn.outgoingEdges e.toUID e }, ?_, ?_⟩
          · rw [mlookup_mset_ne _ _ _ _ (fun hh => hft hh.symm)]
            exact mlookup_mset_self _ _ _
          · exact mlookup_mset_self _ _ _
      · rename_i heq
        rw [mlookup_mset] at heq
        split_ifs at heq <;> simp_all
    · simp only [addEdge, hfs, hts]
      split
      · rename_i toNode heq
        refine ⟨{ toNode with
            incomingEdges := mset toNode.incomingEdges e.fromUID e }, ?_, ?_⟩
        · exact mlookup_mset_self _ _ _
        · exact mlookup_mset_self _ _ _
      · rename_i heq
        rw [mlookup_mset] at heq
        split_ifs at heq <;> simp_all
  · intro h
    rcases hfs : mlookup g.nodes e.fromUID with _ | fn
    · simp only [addEdge, hfs]
    rcases hts : mlookup g.nodes e.toUID with _ | tn
    · simp only [addEdge, hfs, hts]
    · exact absurd ⟨by simp [hfs], by simp [hts]⟩ h

/-- C8 witness: the success case at a concrete two-node graph, and the
failure case on the empty graph. -/
theorem claim_C8_witness :
    (addEdge graphAB edgeAB).2 = true ∧
    addEdge emptyGraph edgeAB = (emptyGraph, false) :=
  ⟨((claim_C8_addEdge_spec graphAB edgeAB).1 (by decide) (by decide)).1,
   (claim_C8_addEdge_spec emptyGraph edgeAB).2 (by decide)⟩

/-- C8 counterexample: with the identical edge already present in both
adjacency maps, `add_edge` still returns `true`, so the boolean does not
report whether a new edge was created. -/
theorem claim_C8_cex :
    ((mlookup graphABe.nodes "a").map (fun n => mlookup n.outgoingEdges "b"))
      = some (some edgeAB) ∧
    (addEdge graphABe edgeAB).2 = true := by
  refine ⟨?_, ?_⟩ <;> decide

/-- C9 (amended): an ADD or UPDATE event for an inactive ReplicaSet
(`status.replicas = 0` and `status.readyReplicas = 0`) is a no-op on the
graph; in particular, if the ReplicaSet's UID is absent it stays absent,
but a previously admitted node for the same UID is not removed. -/
theorem claim_C9_inactive_noop (g : Graph) (rs : ReplicaSet) (et : EventType)
    (hne : et ≠ .delete) (h0 : rs.status.replicas = 0)
    (h1 : rs.status.readyReplicas = 0) :
    processReplicaSet g rs et = g := by
  unfold processReplicaSet
  rw [if_neg (by simpa using hne), if_pos ⟨h0, h1⟩]

/-- An active ReplicaSet fixture (1/1 replicas). -/
def rsActive : ReplicaSet :=
  { meta := { uid := "rs1", name := "web-rs", ns := "demo" }
    spec := { replicas := some 1 }
    status := { replicas := 1, readyReplicas := 1 } }

/-- The same ReplicaSet observed later with 0/0 replicas (inactive). -/
def rsInactive : ReplicaSet :=
  { meta := { uid := "rs1", name := "web-rs", ns := "demo" }
    spec := { replicas := some 0 }
    status := { replicas := 0, readyReplicas := 0 } }

/-- Graph after processing the active ReplicaSet. -/
def graphRS : Graph := processReplicaSet emptyGraph rsActive .add

/-- C9 witness: processing the inactive ReplicaSet on the empty graph is
a no-op, so no node for its UID exists and queries return nothing. -/
theorem claim_C9_witness :
    processReplicaSet emptyGraph rsInactive .add = emptyGraph ∧
    mlookup (processReplicaSet emptyGraph rsInactive .add).nodes "rs1" = none :=
  ⟨claim_C9_inactive_noop emptyGraph rsInactive .add (by decide) rfl rfl,
   by rw [claim_C9_inactive_noop emptyGraph rsInactive .add (by decide) rfl rfl]; rfl⟩

/-- C9 counterexample: the ReplicaSet was admitted while active; the
later inactive UPDATE (0/0) does not remove it, so the graph still holds
a node for its UID, contradicting the claim that processing such an event
leaves the graph without a node for that UID. -/
theorem claim_C9_cex :
    rsInactive.status.replicas = 0 ∧
    rsInactive.status.readyReplicas = 0 ∧
    (mlookup (processReplicaSet graphRS rsInactive .update).nodes "rs1").isSome
      = true := by
  refine ⟨rfl, rfl, ?_⟩
  decide

/-- C4 (amended): upserting a new version of an existing UID replaces the
stored node wholesale: the node map afterwards holds exactly the supplied
node (whose adjacency maps, for processor-built nodes, are freshly empty
— the old node's adjacency is not carried over), while every other node,
including peers whose adjacency still references this UID, is left
untouched; the indexes are adjusted by removing the old node's keys and
re-adding the new node's keys. -/
theorem claim_C4_update_replaces_node (g : Graph) (n : Node)
    (h : (mlookup g.nodes n.uid).isSome = true) :
    mlookup (addNode g n).nodes n.uid = some n ∧
    (∀ v, v ≠ n.uid → mlookup (addNode g n).nodes v = mlookup g.nodes v) := by
  rcases hs : mlookup g.nodes n.uid with _ | old
  · rw [hs] at h; simp at h
  constructor
  · simp only [addNode, hs]
    simp [mlookup_mset_self]
  · intro v hv
    simp only [addNode, hs]
    simp [mlookup_mset_ne _ _ _ _ (Ne.symm hv)]

/-- C4 witness: updating the Pod fixture in a two-node graph stores the
supplied node and leaves the Service node untouched. -/
theorem claim_C4_witness :
    mlookup (addNode graphABe nodePodB).nodes "b" = some nodePodB ∧
    mlookup (addNode graphABe nodePodB).nodes "a" = mlookup graphABe.nodes "a" :=
  ⟨(claim_C4_update_replaces_node graphABe nodePodB (by decide)).1,
   (claim_C4_update_replaces_node graphABe nodePodB (by decide)).2 "a" (by decide)⟩

/-- C4 counterexample: before the upsert the Pod node's incoming map
holds the `selects` edge from the Service; after re-upserting the Pod
(same UID, fresh node) that edge is no longer reachable from the Pod's
node, while the Service still holds it — adjacency is not preserved. -/
theorem claim_C4_cex :
    ((mlookup graphABe.nodes "b").map (fun n => mlookup n.incomingEdges "a"))
      = some (some edgeAB) ∧
    ((mlookup (addNode graphABe nodePodB).nodes "b").map
      (fun n => mlookup n.incomingEdges "a")) = some none ∧
    ((mlookup (addNode graphABe nodePodB).nodes "a").map
      (fun n => mlookup n.outgoingEdges "b")) = some (some edgeAB) := by
  refine ⟨?_, ?_, ?_⟩ <;> decide

/-!
Claim C1: pending-edge behavior of the processors.
-/

theorem foldl_pendingEdges_eq {α : Type} (f : Graph → α → Graph) (l : List α)
    (hf : ∀ g a, (f g a).pendingEdges = g.pendingEdges) (g : Graph) :
    (l.foldl f g).pendingEdges = g.pendingEdges := by
  induction l generalizing g with
  | nil => rfl
  | cons hd tl ih => rw [List.foldl_cons, ih, hf]

theorem foldl_reversePendingEdges_eq {α : Type} (f : Graph → α → Graph)
    (l : List α)
    (hf : ∀ g a, (f g a).reversePendingEdges = g.reversePendingEdges)
    (g : Graph) :
    (l.foldl f g).reversePendingEdges = g.reversePendingEdges := by
  induction l generalizing g with
  | nil => rfl
  | cons hd tl ih => rw [List.foldl_cons, ih, hf]

theorem createOwnershipEdges_pendingEdges (g : Graph) (n : Node)
    (refs : List OwnerReference) :
    (createOwnershipEdges g n refs).pendingEdges = g.pendingEdges := by
  unfold createOwnershipEdges
  apply foldl_pendingEdges_eq
  intro g' o
  cases h : getNode g' o.uid <;> simp [h]

theorem createOwnershipEdges_reversePendingEdges (g : Graph) (n : Node)
    (refs : List OwnerReference) :
    (createOwnershipEdges g n refs).reversePendingEdges =
      g.reversePendingEdges := by
  unfold createOwnershipEdges
  apply foldl_reversePendingEdges_eq
  intro g' o
  cases h : getNode g' o.uid <;> simp [h]

theorem cmEdgeIfFound_pendingEdges (g : Graph) (n : Node) (c : Option String) :
    (cmEdgeIfFound g n c).pendingEdges = g.pendingEdges := by
  unfold cmEdgeIfFound
  split
  · split <;> simp [createEdgeIfNodeExists_pendingEdges,
      createEdgeIfNodeExists_reversePendingEdges]
  · rfl

theorem cmEdgeIfFound_reversePendingEdges (g : Graph) (n : Node)
    (c : Option String) :
    (cmEdgeIfFound g n c).reversePendingEdges = g.reversePendingEdges := by
  unfold cmEdgeIfFound
  split
  · split <;> simp [createEdgeIfNodeExists_pendingEdges,
      createEdgeIfNodeExists_reversePendingEdges]
  · rfl

theorem secretEdgeIfFound_pendingEdges (g : Graph) (n : Node)
    (s : Option String) :
    (secretEdgeIfFound g n s).pendingEdges = g.pendingEdges := by
  unfold secretEdgeIfFound
  split
  · split <;> simp [createEdgeIfNodeExists_pendingEdges,
      createEdgeIfNodeExists_reversePendingEdges]
  · rfl

theorem secretEdgeIfFound_reversePendingEdges (g : Graph) (n : Node)
    (s : Option String) :
    (secretEdgeIfFound g n s).reversePendingEdges = g.reversePendingEdges := by
  unfold secretEdgeIfFound
  split
  · split <;> simp [createEdgeIfNodeExists_pendingEdges,
      createEdgeIfNodeExists_reversePendingEdges]
  · rfl

theorem createConfigMapSecretEdges_pendingEdges (g : Graph) (n : Node)
    (ps : PodSpec) :
    (createConfigMapSecretEdges g n ps).pendingEdges = g.pendingEdges := by
  unfold createConfigMapSecretEdges
  refine (foldl_pendingEdges_eq _ _ ?_ _).trans (foldl_pendingEdges_eq _ _ ?_ _)
  · intro g' c
    unfold cmSecretContainerStep
    refine (foldl_pendingEdges_eq _ _ ?_ _).trans (foldl_pendingEdges_eq _ _ ?_ _)
    · intro g'' ev
      unfold cmSecretEnvStep
      split
      · rfl
      · rw [secretEdgeIfFound_pendingEdges, cmEdgeIfFound_pendingEdges]
    · intro g'' ef
      unfold cmSecretEnvFromStep
      rw [secretEdgeIfFound_pendingEdges, cmEdgeIfFound_pendingEdges]
  · intro g' v
    unfold cmSecretVolumeStep
    rw [secretEdgeIfFound_pendingEdges, cmEdgeIfFound_pendingEdges]

theorem createConfigMapSecretEdges_reversePendingEdges (g : Graph) (n : Node)
    (ps : PodSpec) :
    (createConfigMapSecretEdges g n ps).reversePendingEdges =
      g.reversePendingEdges := by
  unfold createConfigMapSecretEdges
  refine (foldl_reversePendingEdges_eq _ _ ?_ _).trans
    (foldl_reversePendingEdges_eq _ _ ?_ _)
  · intro g' c
    unfold cmSecretContainerStep
    refine (foldl_reversePendingEdges_eq _ _ ?_ _).trans
      (foldl_reversePendingEdges_eq _ _ ?_ _)
    · intro g'' ev
      unfold cmSecretEnvStep
      split
      · rfl
      · rw [secretEdgeIfFound_reversePendingEdges, cmEdgeIfFound_reversePendingEdges]
    · intro g'' ef
      unfold cmSecretEnvFromStep
      rw [secretEdgeIfFound_reversePendingEdges, cmEdgeIfFound_reversePendingEdges]
  · intro g' v
    unfold cmSecretVolumeStep
    rw [secretEdgeIfFound_reversePendingEdges, cmEdgeIfFound_reversePendingEdges]

theorem podPvcStep_pendingEdges (ns : String) (n : Node) (g : Graph)
    (v : Volume) : (podPvcStep ns n g v).pendingEdges = g.pendingEdges := by
  unfold podPvcStep
  split
  · split <;> simp [createEdgeIfNodeExists_pendingEdges,
      createEdgeIfNodeExists_reversePendingEdges]
  · rfl

theorem podPvcStep_reversePendingEdges (ns : String) (n : Node) (g : Graph)
    (v : Volume) :
    (podPvcStep ns n g v).reversePendingEdges = g.reversePendingEdges := by
  unfold podPvcStep
  split
  · split <;> simp [createEdgeIfNodeExists_pendingEdges,
      createEdgeIfNodeExists_reversePendingEdges]
  · rfl

theorem serviceAccountEdge_pendingEdges (g : Graph) (ns saName : String)
    (n : Node) :
    (serviceAccountEdge g ns saName n).pendingEdges = g.pendingEdges := by
  unfold serviceAccountEdge
  split
  · split <;> simp [createEdgeIfNodeExists_pendingEdges,
      createEdgeIfNodeExists_reversePendingEdges]
  · rfl

theorem serviceAccountEdge_reversePendingEdges (g : Graph) (ns saName : String)
    (n : Node) :
    (serviceAccountEdge g ns saName n).reversePendingEdges =
      g.reversePendingEdges := by
  unfold serviceAccountEdge
  split
  · split <;> simp [createEdgeIfNodeExists_pendingEdges,
      createEdgeIfNodeExists_reversePendingEdges]
  · rfl

theorem processPendingEdgesForNode_pendingEdges (g : Graph) (n : Node) :
    (processPendingEdgesForNode g n).pendingEdges =
      ((g.pendingEdges.filter
        (fun kv => matchesRef kv.1 n.ns n.kind n.name)).map Prod.fst).foldl
        merase g.pendingEdges := rfl

theorem addNode_pendingEdges_mem (g : Graph) (n : Node) :
    ∀ kv ∈ (addNode g n).pendingEdges, kv ∈ g.pendingEdges := by
  intro kv hkv
  unfold addNode at hkv
  rcases hs : mlookup g.nodes n.uid with _ | old <;> rw [hs] at hkv
  · simp only [Option.isSome_none, Bool.false_eq_true, if_false] at hkv
    rw [processPendingEdgesForNode_pendingEdges] at hkv
    simp only [addToIndexes_pendingEdges] at hkv
    exact mem_foldl_merase _ _ _ hkv
  · simpa using hkv

theorem addNode_reversePendingEdges_mem (g : Graph) (n : Node) :
    ∀ kv ∈ (addNode g n).reversePendingEdges, kv ∈ g.reversePendingEdges := by
  intro kv hkv
  unfold addNode at hkv
  rcases hs : mlookup g.nodes n.uid with _ | old <;> rw [hs] at hkv
  · simp only [Option.isSome_none, Bool.false_eq_true, if_false] at hkv
    unfold processPendingEdgesForNode at hkv
    simp only at hkv
    exact mem_foldl_merase _ _ _ hkv
  · simpa using hkv

/-- C1 (amended): the processors never register pending edges.  When a
peer (owner, PVC, ConfigMap, Secret, ServiceAccount) is absent at
processing time, the corresponding edge is silently skipped — processing
an event can only shrink the pending tables (through the first-insert
drain inside the upsert), never extend them, so a missing relationship
does not materialize later unless the referring object is processed
again. -/
theorem claim_C1_processors_never_register_pending (g : Graph) (pod : Pod)
    (et : EventType) :
    (∀ kv ∈ (processPod g pod et).pendingEdges, kv ∈ g.pendingEdges) ∧
    (∀ kv ∈ (processPod g pod et).reversePendingEdges,
      kv ∈ g.reversePendingEdges) := by
  by_cases het : et = .delete
  · subst het
    unfold processPod handleDelete
    simp
  · have hp : (processPod g pod et).pendingEdges =
        (addNode g (podNodeOf pod)).pendingEdges := by
      unfold processPod
      rw [if_neg het]
      rw [serviceAccountEdge_pendingEdges, createConfigMapSecretEdges_pendingEdges,
        foldl_pendingEdges_eq _ _ (podPvcStep_pendingEdges pod.meta.ns (podNodeOf pod)),
        createOwnershipEdges_pendingEdges]
    have hr : (processPod g pod et).reversePendingEdges =
        (addNode g (podNodeOf pod)).reversePendingEdges := by
      unfold processPod
      rw [if_neg het]
      rw [serviceAccountEdge_reversePendingEdges,
        createConfigMapSecretEdges_reversePendingEdges,
        foldl_reversePendingEdges_eq _ _
          (podPvcStep_reversePendingEdges pod.meta.ns (podNodeOf pod)),
        createOwnershipEdges_reversePendingEdges]
    rw [hp, hr]
    exact ⟨addNode_pendingEdges_mem g _, addNode_reversePendingEdges_mem g _⟩

/-- A pod referencing an absent owner, an absent PVC and an absent
ServiceAccount. -/
def podOrphan : Pod :=
  { meta := { uid := "p1", name := "mypod", ns := "demo",
              ownerReferences := [{ kind := "ReplicaSet", name := "web-rs", uid := "rs9" }] }
    spec := { serviceAccountName := "app-sa"
              volumes := [{ persistentVolumeClaim := some "data-claim" }] }
    status := { phase := .running } }

/-- C1 counterexample: processing a Pod whose owner, PVC and
ServiceAccount are all absent registers nothing in either pending table
and creates no edge — the relationships are silently dropped, against the
claim that a pending edge is registered for every missing peer. -/
theorem claim_C1_cex :
    (processPod emptyGraph podOrphan .add).pendingEdges = [] ∧
    (processPod emptyGraph podOrphan .add).reversePendingEdges = [] ∧
    ((mlookup (processPod emptyGraph podOrphan .add).nodes "p1").map
      (fun n => (n.outgoingEdges, n.incomingEdges))) = some ([], []) := by
  refine ⟨?_, ?_, ?_⟩ <;> decide

/-- A pending entry unrelated to `podOrphan`, used to witness that
processing leaves existing pending entries where it cannot drain them. -/
def strayRef : RefKey :=
  { gvk := { group := "apps", version := "v1", kind := "Deployment" },
    ns := "demo", name := "web" }

/-- Graph with one node and one stray pending entry. -/
def graphStray : Graph :=
  addPendingEdge (addNode emptyGraph nodeSvcA) "a" strayRef .owns

/-- The stray pending-table entry of `graphStray`. -/
def strayEntry : RefKey × List PendingEdge :=
  (strayRef, [{ fromUID := "a", targetRef := strayRef, edgeType := .owns }])

/-- C1 witness: the pending table after processing the orphan pod over
`graphStray` is contained in the one before — instantiated at the stray
entry. -/
theorem claim_C1_witness : strayEntry ∈ graphStray.pendingEdges :=
  (claim_C1_processors_never_register_pending graphStray podOrphan .add).1
    strayEntry (by decide)

/-!
Claim C2: what the pending drain inside the upsert actually does.
-/

theorem foldl_proj_eq {A γ α : Type} (f : A → α → A) (proj : A → γ)
    (l : List α) (hf : ∀ a x, proj (f a x) = proj a) (a : A) :
    proj (l.foldl f a) = proj a := by
  induction l generalizing a with
  | nil => rfl
  | cons hd tl ih => rw [List.foldl_cons, ih, hf]

theorem mset_isSome_of_present {K V : Type} [DecidableEq K]
    (m : List (K × V)) (k : K) (v : V) (w : K)
    (h : (mlookup m k).isSome = true) :
    (mlookup (mset m k v) w).isSome = (mlookup m w).isSome := by
  by_cases hkw : k = w
  · subst hkw
    rw [mlookup_mset_self]
    simp [h]
  · rw [mlookup_mset_ne _ _ _ _ hkw]

theorem map_proj_some {γ : Type} (o : Option Node) (f : Node → γ) (y : γ)
    (h : o.map f = some y) : ∃ nd, o = some nd ∧ f nd = y := by
  cases o with
  | none => simp at h
  | some nd => exact ⟨nd, rfl, by simpa using h⟩

theorem ap_isSome (uid : UID) (acc : List (UID × Node)) (p : PendingEdge)
    (w : UID) :
    (mlookup (applyPendingEdge uid acc p) w).isSome = (mlookup acc w).isSome := by
  unfold applyPendingEdge
  split
  · rfl
  · rename_i fromNode hf
    dsimp only
    split
    · rename_i hn
      exact mset_isSome_of_present _ _ _ _ (by simp [hf])
    · rename_i nd hn
      rw [mset_isSome_of_present _ _ _ _ (by simp [hn])]
      exact mset_isSome_of_present _ _ _ _ (by simp [hf])

theorem ap_lookup_other (uid : UID) (acc : List (UID × Node)) (p : PendingEdge)
    (w : UID) (hw1 : w ≠ p.fromUID) (hw2 : w ≠ uid) :
    mlookup (applyPendingEdge uid acc p) w = mlookup acc w := by
  unfold applyPendingEdge
  split
  · rfl
  · dsimp only
    split
    · exact mlookup_mset_ne _ _ _ _ (Ne.symm hw1)
    · rw [mlookup_mset_ne _ _ _ _ (Ne.symm hw2),
        mlookup_mset_ne _ _ _ _ (Ne.symm hw1)]

theorem ap_incoming_map (uid : UID) (acc : List (UID × Node)) (p : PendingEdge)
    (w : UID) (hw : w ≠ uid) :
    (mlookup (applyPendingEdge uid acc p) w).map Node.incomingEdges
      = (mlookup acc w).map Node.incomingEdges := by
  unfold applyPendingEdge
  split
  · rfl
  · rename_i fromNode hf
    dsimp only
    split
    · rename_i hn
      by_cases hfw : p.fromUID = w
      · subst hfw
        rw [mlookup_mset_self, hf]
        rfl
      · rw [mlookup_mset_ne _ _ _ _ hfw]
    · rename_i nd hn
      rw [mlookup_mset_ne _ _ _ _ (Ne.symm hw)]
      by_cases hfw : p.fromUID = w
      · subst hfw
        rw [mlookup_mset_self, hf]
        rfl
      · rw [mlookup_mset_ne _ _ _ _ hfw]

theorem ap_uid_incoming_at (uid : UID) (acc : List (UID × Node))
    (p : PendingEdge) (w : UID) (hw : w ≠ p.fromUID) :
    (mlookup (applyPendingEdge uid acc p) uid).map
        (fun nd => mlookup nd.incomingEdges w)
      = (mlookup acc uid).map (fun nd => mlookup nd.incomingEdges w) := by
  unfold applyPendingEdge
  split
  · rfl
  · rename_i fromNode hf
    dsimp only
    split
    · rename_i hn
      by_cases hfu : p.fromUID = uid
      · subst hfu
        rw [mlookup_mset_self, hf]
        rfl
      · rw [mlookup_mset_ne _ _ _ _ hfu]
    · rename_i nd hn
      rw [mlookup_mset_self]
      simp only [Option.map_some']
      rw [mlookup_mset_ne _ _ _ _ (Ne.symm hw)]
      by_cases hfu : p.fromUID = uid
      · subst hfu
        rw [mlookup_mset_self] at hn
        injection hn with hn
        subst hn
        rw [hf]
        rfl
      · rw [mlookup_mset_ne _ _ _ _ hfu] at hn
        rw [hn]
        rfl

theorem ap_uid_outgoing_at (uid : UID) (acc : List (UID × Node))
    (p : PendingEdge) (w : UID) (hw : w ≠ uid) :
    (mlookup (applyPendingEdge uid acc p) uid).map
        (fun nd => mlookup nd.outgoingEdges w)
      = (mlookup acc uid).map (fun nd => mlookup nd.outgoingEdges w) := by
  unfold applyPendingEdge
  split
  · rfl
  · rename_i fromNode hf
    dsimp only
    split
    · rename_i hn
      by_cases hfu : p.fromUID = uid
      · subst hfu
        rw [mlookup_mset_self, hf]
        simp only [Option.map_some']
        rw [mlookup_mset_ne _ _ _ _ (Ne.symm hw)]
      · rw [mlookup_mset_ne _ _ _ _ hfu]
    · rename_i nd hn
      rw [mlookup_mset_self]
      simp only [Option.map_some']
      by_cases hfu : p.fromUID = uid
      · subst hfu
        rw [mlookup_mset_self] at hn
        injection hn with hn
        subst hn
        rw [hf]
        simp only [Option.map_some']
        rw [mlookup_mset_ne _ _ _ _ (Ne.symm hw)]
      · rw [mlookup_mset_ne _ _ _ _ hfu] at hn
        rw [hn]
        rfl

/-- The two adjacency facts established for a drained forward pending
entry: the edge sits in the source's outgoing map and in the new node's
incoming map. -/
def pendingEst (uid f : UID) (e : Edge) (acc : List (UID × Node)) : Prop :=
  (∃ fn, mlookup acc f = some fn ∧ mlookup fn.outgoingEdges uid = some e) ∧
  (∃ nd, mlookup acc uid = some nd ∧ mlookup nd.incomingEdges f = some e)

theorem ap_establish (uid : UID) (acc : List (UID × Node)) (p : PendingEdge)
    (fn : Node) (hf : mlookup acc p.fromUID = some fn)
    (hnode : (mlookup acc uid).isSome = true) (hne : p.fromUID ≠ uid) :
    pendingEst uid p.fromUID (pendingEdgeFor uid p)
      (applyPendingEdge uid acc p) := by
  unfold applyPendingEdge
  rw [hf]
  dsimp only
  split
  · rename_i hn
    rw [mlookup_mset_ne _ _ _ _ hne] at hn
    rw [hn] at hnode
    simp at hnode
  · rename_i nd hn
    constructor
    · refine ⟨{ fn with outgoingEdges := mset fn.outgoingEdges uid (pendingEdgeFor uid p) }, ?_, ?_⟩
      · rw [mlookup_mset_ne _ _ _ _ (Ne.symm hne)]
        exact mlookup_mset_self _ _ _
      · exact mlookup_mset_self _ _ _
    · refine ⟨{ nd with incomingEdges := mset nd.incomingEdges p.fromUID (pendingEdgeFor uid p) }, ?_, ?_⟩
      · exact mlookup_mset_self _ _ _
      · exact mlookup_mset_self _ _ _

theorem pendFold_preserves_est (uid : UID) (p : PendingEdge)
    (l : List PendingEdge) (hne : p.fromUID ≠ uid)
    (huniq : ∀ q ∈ l, q.fromUID = p.fromUID → q = p) :
    ∀ acc, pendingEst uid p.fromUID (pendingEdgeFor uid p) acc →
      pendingEst uid p.fromUID (pendingEdgeFor uid p)
        (l.foldl (applyPendingEdge uid) acc) := by
  induction l with
  | nil => intro acc h; exact h
  | cons q tl ih =>
    intro acc h
    rw [List.foldl_cons]
    refine ih (fun q' hq' => huniq q' (List.mem_cons_of_mem _ hq')) _ ?_
    by_cases hq : q.fromUID = p.fromUID
    · have hqp : q = p := huniq q (List.mem_cons_self _ _) hq
      subst hqp
      obtain ⟨⟨fn, hfn, _⟩, ⟨nd, hnd, _⟩⟩ := h
      exact ap_establish uid acc q fn hfn (by simp [hnd]) hne
    · obtain ⟨⟨fn, hfn, hfe⟩, ⟨nd, hnd, hie⟩⟩ := h
      constructor
      · refine ⟨fn, ?_, hfe⟩
        rw [ap_lookup_other uid acc q p.fromUID (fun hh => hq hh.symm) hne]
        exact hfn
      · have hmap := ap_uid_incoming_at uid acc q p.fromUID
          (fun hh => hq hh.symm)
        rw [hnd] at hmap
        simp only [Option.map_some'] at hmap
        obtain ⟨nd', hnd', he'⟩ := map_proj_some _ _ _ hmap
        exact ⟨nd', hnd', by rw [he', hie]⟩

theorem pendFold_establishes (uid : UID) (p : PendingEdge)
    (l : List PendingEdge) (hp : p ∈ l)
    (huniq : ∀ q ∈ l, q.fromUID = p.fromUID → q = p)
    (hne : p.fromUID ≠ uid) (acc : List (UID × Node))
    (hfrom : (mlookup acc p.fromUID).isSome = true)
    (hnode : (mlookup acc uid).isSome = true) :
    pendingEst uid p.fromUID (pendingEdgeFor uid p)
      (l.foldl (applyPendingEdge uid) acc) := by
  obtain ⟨s, t, rfl⟩ := List.append_of_mem hp
  rw [List.foldl_append, List.foldl_cons]
  have hsome : ∀ w, (mlookup (s.foldl (applyPendingEdge uid) acc) w).isSome
      = (mlookup acc w).isSome := by
    intro w
    exact foldl_proj_eq (applyPendingEdge uid)
      (fun a => (mlookup a w).isSome) s (fun a x => ap_isSome uid a x w) acc
  rcases hfs : mlookup (s.foldl (applyPendingEdge uid) acc) p.fromUID with _ | fn
  · exfalso
    have h := hsome p.fromUID
    rw [hfs, hfrom] at h
    simp at h
  · refine pendFold_preserves_est uid p t hne
      (fun q hq => huniq q (by simp [hq])) _ ?_
    refine ap_establish uid _ p fn hfs ?_ hne
    rw [hsome uid]
    exact hnode

/-- The edge built for a drained reverse pending entry. -/
def reverseEdgeFor (uid : UID) (rp : ReversePendingEdge) : Edge :=
  { etype := rp.edgeType, fromUID := uid, toUID := rp.toUID }

theorem arp_isSome (uid : UID) (acc : List (UID × Node))
    (rp : ReversePendingEdge) (w : UID) :
    (mlookup (applyReversePendingEdge uid acc rp) w).isSome
      = (mlookup acc w).isSome := by
  rcases ht : mlookup acc rp.toUID with _ | t0
  · unfold applyReversePendingEdge
    rw [ht]
  · rcases hu : mlookup acc uid with _ | nd0
    · unfold applyReversePendingEdge
      rw [ht]
      dsimp only
      rw [hu]
      dsimp only
      rw [ht]
      exact mset_isSome_of_present _ _ _ _ (by simp [ht])
    · unfold applyReversePendingEdge
      rw [ht]
      dsimp only
      rw [hu]
      dsimp only
      split
      · exact mset_isSome_of_present _ _ _ _ (by simp [hu])
      · rename_i tn htn
        rw [mset_isSome_of_present _ _ _ _ (by simp [htn])]
        exact mset_isSome_of_present _ _ _ _ (by simp [hu])

theorem arp_lookup_other (uid : UID) (acc : List (UID × Node))
    (rp : ReversePendingEdge) (w : UID) (hw1 : w ≠ rp.toUID) (hw2 : w ≠ uid) :
    mlookup (applyReversePendingEdge uid acc rp) w = mlookup acc w := by
  rcases ht : mlookup acc rp.toUID with _ | t0
  · unfold applyReversePendingEdge
    rw [ht]
  · rcases hu : mlookup acc uid with _ | nd0
    · unfold applyReversePendingEdge
      rw [ht]
      dsimp only
      rw [hu]
      dsimp only
      rw [ht]
      exact mlookup_mset_ne _ _ _ _ (Ne.symm hw1)
    · unfold applyReversePendingEdge
      rw [ht]
      dsimp only
      rw [hu]
      dsimp only
      split
      · exact mlookup_mset_ne _ _ _ _ (Ne.symm hw2)
      · rw [mlookup_mset_ne _ _ _ _ (Ne.symm hw1),
          mlookup_mset_ne _ _ _ _ (Ne.symm hw2)]

theorem arp_outgoing_map (uid : UID) (acc : List (UID × Node))
    (rp : ReversePendingEdge) (w : UID) (hw : w ≠ uid) :
    (mlookup (applyReversePendingEdge uid acc rp) w).map Node.outgoingEdges
      = (mlookup acc w).map Node.outgoingEdges := by
  rcases ht : mlookup acc rp.toUID with _ | t0
  · unfold applyReversePendingEdge
    rw [ht]
  · rcases hu : mlookup acc uid with _ | nd0
    · unfold applyReversePendingEdge
      rw [ht]
      dsimp only
      rw [hu]
      dsimp only
      rw [ht]
      by_cases htw : rp.toUID = w
      · subst htw
        rw [mlookup_mset_self, ht]
        rfl
      · rw [mlookup_mset_ne _ _ _ _ htw]
    · unfold applyReversePendingEdge
      rw [ht]
      dsimp only
      rw [hu]
      dsimp only
      split
      · rw [mlookup_mset_ne _ _ _ _ (Ne.symm hw)]
      · rename_i tn htn
        by_cases htw : rp.toUID = w
        · subst htw
          rw [mlookup_mset_self]
          rw [mlookup_mset_ne _ _ _ _ (Ne.symm hw)] at htn
          rw [htn]
          rfl
        · rw [mlookup_mset_ne _ _ _ _ htw,
            mlookup_mset_ne _ _ _ _ (Ne.symm hw)]

theorem arp_uid_incoming_at (uid : UID) (acc : List (UID × Node))
    (rp : ReversePendingEdge) (w : UID) (hw : w ≠ uid) :
    (mlookup (applyReversePendingEdge uid acc rp) uid).map
        (fun nd => mlookup nd.incomingEdges w)
      = (mlookup acc uid).map (fun nd => mlookup nd.incomingEdges w) := by
  rcases ht : mlookup acc rp.toUID with _ | t0
  · unfold applyReversePendingEdge
    rw [ht]
  · rcases hu : mlookup acc uid with _ | nd0
    · unfold applyReversePendingEdge
      rw [ht]
      dsimp only
      rw [hu]
      dsimp only
      rw [ht]
      by_cases htu : rp.toUID = uid
      · rw [htu] at ht
        rw [ht] at hu
        exact absurd hu (by simp)
      · rw [mlookup_mset_ne _ _ _ _ htu, hu]
    · unfold applyReversePendingEdge
      rw [ht]
      dsimp only
      rw [hu]
      dsimp only
      split
      · rw [mlookup_mset_self]
        rfl
      · rename_i tn htn
        by_cases htu : rp.toUID = uid
        · rw [htu] at htn ⊢
          rw [mlookup_mset_self] at htn
          injection htn with htn
          subst htn
          rw [mlookup_mset_self]
          simp only [Option.map_some']
          rw [mlookup_mset_ne _ _ _ _ (Ne.symm hw)]
        · rw [mlookup_mset_ne _ _ _ _ htu, mlookup_mset_self]
          rfl

theorem arp_uid_outgoing_at (uid : UID) (acc : List (UID × Node))
    (rp : ReversePendingEdge) (w : UID) (hw : w ≠ rp.toUID) :
    (mlookup (applyReversePendingEdge uid acc rp) uid).map
        (fun nd => mlookup nd.outgoingEdges w)
      = (mlookup acc uid).map (fun nd => mlookup nd.outgoingEdges w) := by
  rcases ht : mlookup acc rp.toUID with _ | t0
  · unfold applyReversePendingEdge
    rw [ht]
  · rcases hu : mlookup acc uid with _ | nd0
    · unfold applyReversePendingEdge
      rw [ht]
      dsimp only
      rw [hu]
      dsimp only
      rw [ht]
      by_cases htu : rp.toUID = uid
      · rw [htu] at ht
        rw [ht] at hu
        exact absurd hu (by simp)
      · rw [mlookup_mset_ne _ _ _ _ htu, hu]
    · unfold applyReversePendingEdge
      rw [ht]
      dsimp only
      rw [hu]
      dsimp only
      split
      · rw [mlookup_mset_self]
        simp only [Option.map_some']
        rw [mlookup_mset_ne _ _ _ _ (Ne.symm hw)]
      · rename_i tn htn
        by_cases htu : rp.toUID = uid
        · rw [htu] at htn ⊢
          rw [mlookup_mset_self] at htn
          injection htn with htn
          subst htn
          rw [mlookup_mset_self]
          simp only [Option.map_some']
          rw [mlookup_mset_ne _ _ _ _ (fun hh => hw ((htu.trans hh).symm))]
        · rw [mlookup_mset_ne _ _ _ _ htu, mlookup_mset_self]
          simp only [Option.map_some']
          rw [mlookup_mset_ne _ _ _ _ (Ne.symm hw)]

/-- The two adjacency facts established for a drained reverse pending
entry. -/
def reverseEst (uid t : UID) (e : Edge) (acc : List (UID × Node)) : Prop :=
  (∃ nd, mlookup acc uid = some nd ∧ mlookup nd.outgoingEdges t = some e) ∧
  (∃ tn, mlookup acc t = some tn ∧ mlookup tn.incomingEdges uid = some e)

theorem arp_establish (uid : UID) (acc : List (UID × Node))
    (rp : ReversePendingEdge)
    (hto : (mlookup acc rp.toUID).isSome = true)
    (hnode : (mlookup acc uid).isSome = true) (hne : rp.toUID ≠ uid) :
    reverseEst uid rp.toUID (reverseEdgeFor uid rp)
      (applyReversePendingEdge uid acc rp) := by
  rcases hts : mlookup acc rp.toUID with _ | tn0
  · rw [hts] at hto; simp at hto
  rcases hus : mlookup acc uid with _ | nd0
  · rw [hus] at hnode; simp at hnode
  unfold applyReversePendingEdge
  rw [hts]
  dsimp only
  rw [hus]
  dsimp only
  split
  · rename_i htn
    rw [mlookup_mset_ne _ _ _ _ (fun hh => hne hh.symm), hts] at htn
    exact absurd htn (by simp)
  · rename_i tn htn
    rw [mlookup_mset_ne _ _ _ _ (fun hh => hne hh.symm), hts] at htn
    injection htn with htn
    subst htn
    constructor
    · refine ⟨{ nd0 with outgoingEdges := mset nd0.outgoingEdges rp.toUID (reverseEdgeFor uid rp) }, ?_, ?_⟩
      · rw [mlookup_mset_ne _ _ _ _ hne]
        exact mlookup_mset_self _ _ _
      · exact mlookup_mset_self _ _ _
    · refine ⟨{ tn0 with incomingEdges := mset tn0.incomingEdges uid (reverseEdgeFor uid rp) }, ?_, ?_⟩
      · exact mlookup_mset_self _ _ _
      · exact mlookup_mset_self _ _ _

theorem revFold_preserves_est (uid : UID) (p : ReversePendingEdge)
    (l : List ReversePendingEdge) (hne : p.toUID ≠ uid)
    (huniq : ∀ q ∈ l, q.toUID = p.toUID → q = p) :
    ∀ acc, reverseEst uid p.toUID (reverseEdgeFor uid p) acc →
      reverseEst uid p.toUID (reverseEdgeFor uid p)
        (l.foldl (applyReversePendingEdge uid) acc) := by
  induction l with
  | nil => intro acc h; exact h
  | cons q tl ih =>
    intro acc h
    rw [List.foldl_cons]
    refine ih (fun q' hq' => huniq q' (List.mem_cons_of_mem _ hq')) _ ?_
    by_cases hq : q.toUID = p.toUID
    · have hqp : q = p := huniq q (List.mem_cons_self _ _) hq
      subst hqp
      obtain ⟨⟨nd, hnd, _⟩, ⟨tn, htn, _⟩⟩ := h
      exact arp_establish uid acc q (by simp [htn]) (by simp [hnd]) hne
    · obtain ⟨⟨nd, hnd, hoe⟩, ⟨tn, htn, hie⟩⟩ := h
      constructor
      · have hmap := arp_uid_outgoing_at uid acc q p.toUID
          (fun hh => hq hh.symm)
        rw [hnd] at hmap
        simp only [Option.map_some'] at hmap
        obtain ⟨nd', hnd', he'⟩ := map_proj_some _ _ _ hmap
        exact ⟨nd', hnd', by rw [he', hoe]⟩
      · refine ⟨tn, ?_, hie⟩
        rw [arp_lookup_other uid acc q p.toUID (fun hh => hq hh.symm) hne]
        exact htn

theorem revFold_establishes (uid : UID) (p : ReversePendingEdge)
    (l : List ReversePendingEdge) (hp : p ∈ l)
    (huniq : ∀ q ∈ l, q.toUID = p.toUID → q = p)
    (hne : p.toUID ≠ uid) (acc : List (UID × Node))
    (hto : (mlookup acc p.toUID).isSome = true)
    (hnode : (mlookup acc uid).isSome = true) :
    reverseEst uid p.toUID (reverseEdgeFor uid p)
      (l.foldl (applyReversePendingEdge uid) acc) := by
  obtain ⟨s, t, rfl⟩ := List.append_of_mem hp
  rw [List.foldl_append, List.foldl_cons]
  have hsome : ∀ w, (mlookup (s.foldl (applyReversePendingEdge uid) acc) w).isSome
      = (mlookup acc w).isSome := by
    intro w
    exact foldl_proj_eq (applyReversePendingEdge uid)
      (fun a => (mlookup a w).isSome) s (fun a x => arp_isSome uid a x w) acc
  refine revFold_preserves_est uid p t hne
    (fun q hq => huniq q (by simp [hq])) _ ?_
  refine arp_establish uid _ p ?_ ?_ hne
  · rw [hsome p.toUID]; exact hto
  · rw [hsome uid]; exact hnode

theorem drainFold_proj_eq {β γ : Type}
    (step : List (UID × Node) → β → List (UID × Node))
    (proj : List (UID × Node) → γ) (hstep : ∀ a b, proj (step a b) = proj a)
    (l : List (RefKey × List β)) (acc : List (UID × Node)) :
    proj (l.foldl (fun a kv => kv.2.foldl step a) acc) = proj acc := by
  apply foldl_proj_eq
  intro a kv
  exact foldl_proj_eq step proj kv.2 hstep a

theorem processPendingEdgesForNode_nodes (g : Graph) (n : Node) :
    (processPendingEdgesForNode g n).nodes =
      ((g.reversePendingEdges.filter
        (fun kv => matchesRef kv.1 n.ns n.kind n.name)).foldl
        (fun acc kv => kv.2.foldl (applyReversePendingEdge n.uid) acc)
        ((g.pendingEdges.filter
          (fun kv => matchesRef kv.1 n.ns n.kind n.name)).foldl
          (fun acc kv => kv.2.foldl (applyPendingEdge n.uid) acc) g.nodes)) := rfl

theorem processPendingEdgesForNode_revPending (g : Graph) (n : Node) :
    (processPendingEdgesForNode g n).reversePendingEdges =
      ((g.reversePendingEdges.filter
        (fun kv => matchesRef kv.1 n.ns n.kind n.name)).map Prod.fst).foldl
        merase g.reversePendingEdges := rfl

theorem processPending_forward (g : Graph) (n : Node) (r : RefKey)
    (l : List PendingEdge) (p : PendingEdge)
    (hfilter : g.pendingEdges.filter
      (fun kv => matchesRef kv.1 n.ns n.kind n.name) = [(r, l)])
    (hp : p ∈ l) (huniq : ∀ q ∈ l, q.fromUID = p.fromUID → q = p)
    (hfrom : (mlookup g.nodes p.fromUID).isSome = true)
    (hnode : (mlookup g.nodes n.uid).isSome = true)
    (hne : p.fromUID ≠ n.uid) :
    (∃ fn, mlookup (processPendingEdgesForNode g n).nodes p.fromUID = some fn ∧
       mlookup fn.outgoingEdges n.uid = some (pendingEdgeFor n.uid p)) ∧
    (∃ nd, mlookup (processPendingEdgesForNode g n).nodes n.uid = some nd ∧
       mlookup nd.incomingEdges p.fromUID = some (pendingEdgeFor n.uid p)) ∧
    mlookup (processPendingEdgesForNode g n).pendingEdges r = none := by
  have hest := pendFold_establishes n.uid p l hp huniq hne g.nodes hfrom hnode
  refine ⟨?_, ?_, ?_⟩
  · obtain ⟨⟨fn, hfn, hfe⟩, _⟩ := hest
    have hmap : (mlookup (processPendingEdgesForNode g n).nodes
        p.fromUID).map Node.outgoingEdges = some fn.outgoingEdges := by
      rw [processPendingEdgesForNode_nodes, hfilter]
      simp only [List.foldl_cons, List.foldl_nil]
      have hpre := drainFold_proj_eq (applyReversePendingEdge n.uid)
        (fun a => (mlookup a p.fromUID).map Node.outgoingEdges)
        (fun a b => arp_outgoing_map n.uid a b p.fromUID hne)
        (g.reversePendingEdges.filter
          (fun kv => matchesRef kv.1 n.ns n.kind n.name))
        (l.foldl (applyPendingEdge n.uid) g.nodes)
      rw [hpre, hfn]
      rfl
    obtain ⟨fn', hfn', he'⟩ := map_proj_some _ _ _ hmap
    exact ⟨fn', hfn', by rw [he', hfe]⟩
  · obtain ⟨_, ⟨nd, hnd, hie⟩⟩ := hest
    have hmap : (mlookup (processPendingEdgesForNode g n).nodes n.uid).map
        (fun x => mlookup x.incomingEdges p.fromUID)
          = some (mlookup nd.incomingEdges p.fromUID) := by
      rw [processPendingEdgesForNode_nodes, hfilter]
      simp only [List.foldl_cons, List.foldl_nil]
      have hpre := drainFold_proj_eq (applyReversePendingEdge n.uid)
        (fun a => (mlookup a n.uid).map (fun x => mlookup x.incomingEdges p.fromUID))
        (fun a b => arp_uid_incoming_at n.uid a b p.fromUID hne)
        (g.reversePendingEdges.filter
          (fun kv => matchesRef kv.1 n.ns n.kind n.name))
        (l.foldl (applyPendingEdge n.uid) g.nodes)
      rw [hpre, hnd]
      rfl
    obtain ⟨nd', hnd', he'⟩ := map_proj_some _ _ _ hmap
    exact ⟨nd', hnd', by rw [he', hie]⟩
  · rw [processPendingEdgesForNode_pendingEdges, hfilter]
    simp only [List.map_cons, List.map_nil, List.foldl_cons, List.foldl_nil]
    rw [mlookup_merase]
    simp

theorem processPending_reverse (g : Graph) (n : Node) (r : RefKey)
    (l : List ReversePendingEdge) (p : ReversePendingEdge)
    (hfilter : g.reversePendingEdges.filter
      (fun kv => matchesRef kv.1 n.ns n.kind n.name) = [(r, l)])
    (hp : p ∈ l) (huniq : ∀ q ∈ l, q.toUID = p.toUID → q = p)
    (hto : (mlookup g.nodes p.toUID).isSome = true)
    (hnode : (mlookup g.nodes n.uid).isSome = true)
    (hne : p.toUID ≠ n.uid) :
    (∃ nd, mlookup (processPendingEdgesForNode g n).nodes n.uid = some nd ∧
       mlookup nd.outgoingEdges p.toUID = some (reverseEdgeFor n.uid p)) ∧
    (∃ tn, mlookup (processPendingEdgesForNode g n).nodes p.toUID = some tn ∧
       mlookup tn.incomingEdges n.uid = some (reverseEdgeFor n.uid p)) ∧
    mlookup (processPendingEdgesForNode g n).reversePendingEdges r = none := by
  have hsome : ∀ w, (mlookup ((g.pendingEdges.filter
      (fun kv => matchesRef kv.1 n.ns n.kind n.name)).foldl
      (fun acc kv => kv.2.foldl (applyPendingEdge n.uid) acc) g.nodes)
        w).isSome = (mlookup g.nodes w).isSome := by
    intro w
    have hpre := drainFold_proj_eq (applyPendingEdge n.uid)
      (fun a => (mlookup a w).isSome)
      (fun a b => ap_isSome n.uid a b w)
      (g.pendingEdges.filter (fun kv => matchesRef kv.1 n.ns n.kind n.name))
      g.nodes
    exact hpre
  have hest := revFold_establishes n.uid p l hp huniq hne
    ((g.pendingEdges.filter (fun kv => matchesRef kv.1 n.ns n.kind n.name)).foldl
      (fun acc kv => kv.2.foldl (applyPendingEdge n.uid) acc) g.nodes)
    (by rw [hsome]; exact hto) (by rw [hsome]; exact hnode)
  refine ⟨?_, ?_, ?_⟩
  · obtain ⟨⟨nd, hnd, hoe⟩, _⟩ := hest
    refine ⟨nd, ?_, hoe⟩
    rw [processPendingEdgesForNode_nodes, hfilter]
    simp only [List.foldl_cons, List.foldl_nil]
    exact hnd
  · obtain ⟨_, ⟨tn, htn, hie⟩⟩ := hest
    refine ⟨tn, ?_, hie⟩
    rw [processPendingEdgesForNode_nodes, hfilter]
    simp only [List.foldl_cons, List.foldl_nil]
    exact htn
  · rw [processPendingEdgesForNode_revPending, hfilter]
    simp only [List.map_cons, List.map_nil, List.foldl_cons, List.foldl_nil]
    rw [mlookup_merase]
    simp

theorem addNode_insert_shape (g : Graph) (n : Node)
    (hfresh : mlookup g.nodes n.uid = none) :
    addNode g n = processPendingEdgesForNode
      (addToIndexes { g with nodes := mset g.nodes n.uid n } n) n := by
  unfold addNode
  rw [hfresh]
  rfl

/-- C2 (amended): the pending tables are drained only when the UID is
first inserted.  On a first insert, every matching forward pending edge
whose recorded source exists (with a unique source among the matching
entries) is materialized in both endpoints' adjacency maps and its key is
removed from the pending table — and symmetrically for reverse-pending.
On an upsert of an already-present UID, the pending tables are not
consulted at all and stay unchanged. -/
theorem claim_C2_drain_only_on_first_insert (g : Graph) (n : Node) :
    (mlookup g.nodes n.uid = none →
      ∀ r l p, g.pendingEdges.filter
          (fun kv => matchesRef kv.1 n.ns n.kind n.name) = [(r, l)] →
        p ∈ l → (∀ q ∈ l, q.fromUID = p.fromUID → q = p) →
        (mlookup g.nodes p.fromUID).isSome = true →
        ((∃ fn, mlookup (addNode g n).nodes p.fromUID = some fn ∧
            mlookup fn.outgoingEdges n.uid = some (pendingEdgeFor n.uid p)) ∧
         (∃ nd, mlookup (addNode g n).nodes n.uid = some nd ∧
            mlookup nd.incomingEdges p.fromUID = some (pendingEdgeFor n.uid p)) ∧
         mlookup (addNode g n).pendingEdges r = none)) ∧
    (mlookup g.nodes n.uid = none →
      ∀ r l p, g.reversePendingEdges.filter
          (fun kv => matchesRef kv.1 n.ns n.kind n.name) = [(r, l)] →
        p ∈ l → (∀ q ∈ l, q.toUID = p.toUID → q = p) →
        (mlookup g.nodes p.toUID).isSome = true →
        ((∃ nd, mlookup (addNode g n).nodes n.uid = some nd ∧
            mlookup nd.outgoingEdges p.toUID = some (reverseEdgeFor n.uid p)) ∧
         (∃ tn, mlookup (addNode g n).nodes p.toUID = some tn ∧
            mlookup tn.incomingEdges n.uid = some (reverseEdgeFor n.uid p)) ∧
         mlookup (addNode g n).reversePendingEdges r = none)) ∧
    ((mlookup g.nodes n.uid).isSome = true →
      (addNode g n).pendingEdges = g.pendingEdges ∧
      (addNode g n).reversePendingEdges = g.reversePendingEdges) := by
  refine ⟨?_, ?_, ?_⟩
  · intro hfresh r l p hfilter hp huniq hfrom
    have hne : p.fromUID ≠ n.uid := by
      intro hh
      rw [hh, hfresh] at hfrom
      simp at hfrom
    rw [addNode_insert_shape g n hfresh]
    refine processPending_forward _ n r l p hfilter hp huniq ?_ ?_ hne
    · show (mlookup (mset g.nodes n.uid n) p.fromUID).isSome = true
      rw [mlookup_mset_ne _ _ _ _ (Ne.symm hne)]
      exact hfrom
    · show (mlookup (mset g.nodes n.uid n) n.uid).isSome = true
      rw [mlookup_mset_self]
      rfl
  · intro hfresh r l p hfilter hp huniq hto
    have hne : p.toUID ≠ n.uid := by
      intro hh
      rw [hh, hfresh] at hto
      simp at hto
    rw [addNode_insert_shape g n hfresh]
    refine processPending_reverse _ n r l p hfilter hp huniq ?_ ?_ hne
    · show (mlookup (mset g.nodes n.uid n) p.toUID).isSome = true
      rw [mlookup_mset_ne _ _ _ _ (Ne.symm hne)]
      exact hto
    · show (mlookup (mset g.nodes n.uid n) n.uid).isSome = true
      rw [mlookup_mset_self]
      rfl
  · intro hup
    rcases hs : mlookup g.nodes n.uid with _ | old
    · rw [hs] at hup; simp at hup
    · constructor
      · unfold addNode
        rw [hs]
        rfl
      · unfold addNode
        rw [hs]
        rfl

/-- The reference triple matching the Pod fixture `nodePodB`. -/
def refPodB : RefKey :=
  { gvk := { group := "", version := "v1", kind := "Pod" },
    ns := "demo", name := "pod-b" }

/-- The forward pending entry from the Service fixture to `refPodB`. -/
def pendEntryAB : PendingEdge :=
  { fromUID := "a", targetRef := refPodB, edgeType := .selects }

/-- Graph holding the Service fixture and a pending edge waiting for the
Pod fixture. -/
def graphPendB : Graph :=
  addPendingEdge (addNode emptyGraph nodeSvcA) "a" refPodB .selects

/-- C2 witness: first insert of the Pod fixture drains the matching
pending entry — the edge appears in both adjacency maps and the pending
key is gone. -/
theorem claim_C2_witness :
    (∃ fn, mlookup (addNode graphPendB nodePodB).nodes "a" = some fn ∧
       mlookup fn.outgoingEdges "b" = some (pendingEdgeFor "b" pendEntryAB)) ∧
    (∃ nd, mlookup (addNode graphPendB nodePodB).nodes "b" = some nd ∧
       mlookup nd.incomingEdges "a" = some (pendingEdgeFor "b" pendEntryAB)) ∧
    mlookup (addNode graphPendB nodePodB).pendingEdges refPodB = none :=
  (claim_C2_drain_only_on_first_insert graphPendB nodePodB).1 (by decide)
    refPodB [pendEntryAB] pendEntryAB (by decide) (by decide) (by decide)
    (by decide)

/-- Graph where the Pod fixture is already present and a pending entry
matching its triple exists (added after the node, so never drained). -/
def graphPendPresent : Graph :=
  addPendingEdge (addNode (addNode emptyGraph nodeSvcA) nodePodB) "a"
    refPodB .selects

/-- C2 counterexample: the Pod's UID is already present, a pending entry
matching its (kind, namespace, name) exists, yet upserting the node again
leaves the pending entry in place and materializes no edge — the drain
runs only on first insert, not on later updates. -/
theorem claim_C2_cex :
    (mlookup graphPendPresent.nodes "b").isSome = true ∧
    (mlookup graphPendPresent.pendingEdges refPodB).isSome = true ∧
    (addNode graphPendPresent nodePodB).pendingEdges
      = graphPendPresent.pendingEdges ∧
    ((mlookup (addNode graphPendPresent nodePodB).nodes "b").map
      (fun nd => mlookup nd.incomingEdges "a")) = some none := by
  refine ⟨?_, ?_, ?_, ?_⟩ <;> decide

/-! ### C10: at most one edge per ordered pair of UIDs

Adjacency maps are keyed by the peer UID alone (`map[string]*Edge`), so a
node can hold at most one outgoing (resp. incoming) edge per peer.  We
prove the invariant for every graph reachable from the empty graph by the
store's operations, provided upserted nodes have duplicate-free adjacency
keys (processor-built nodes have empty adjacency maps). -/

/-- The store-level operations a graph is built from. -/
inductive StoreOp where
  | upsert (n : Node)
  | remove (u : UID)
  | addE (e : Edge)
  | removeE (f t : UID)
  | addPend (fromUID : UID) (ref : RefKey) (ty : EdgeType)
  | addRevPend (toUID : UID) (ref : RefKey) (ty : EdgeType)
  deriving Repr

/-- Interpretation of a store operation on a graph. -/
def applyStoreOp (g : Graph) : StoreOp → Graph
  | .upsert n => addNode g n
  | .remove u => removeNode g u
  | .addE e => (addEdge g e).1
  | .removeE f t => removeEdge g f t
  | .addPend f r ty => addPendingEdge g f r ty
  | .addRevPend t r ty => addReversePendingEdge g t r ty

/-- A graph built from the empty graph by a sequence of store operations. -/
def applyStoreOps (ops : List StoreOp) : Graph :=
  ops.foldl applyStoreOp emptyGraph

/-- Well-formedness of a store operation: an upserted node carries
duplicate-free adjacency keys (true of every processor-built node, whose
adjacency maps are empty). -/
def WFOp : StoreOp → Prop
  | .upsert n => (mkeys n.outgoingEdges).Nodup ∧ (mkeys n.incomingEdges).Nodup
  | _ => True

instance (op : StoreOp) : Decidable (WFOp op) := by
  cases op with
  | upsert n => exact inferInstanceAs (Decidable (_ ∧ _))
  | remove u => exact inferInstanceAs (Decidable True)
  | addE e => exact inferInstanceAs (Decidable True)
  | removeE f t => exact inferInstanceAs (Decidable True)
  | addPend f r ty => exact inferInstanceAs (Decidable True)
  | addRevPend t r ty => exact inferInstanceAs (Decidable True)

/-- Every node stored in the map has duplicate-free adjacency keys. -/
def nodupAdj (m : List (UID × Node)) : Prop :=
  ∀ u n, mlookup m u = some n →
    (mkeys n.outgoingEdges).Nodup ∧ (mkeys n.incomingEdges).Nodup

theorem mkeys_cons {K V : Type} (a : K) (b : V) (tl : List (K × V)) :
    mkeys ((a, b) :: tl) = a :: mkeys tl := rfl

theorem mlookup_isSome_of_mem_mkeys {K V : Type} [DecidableEq K]
    {m : List (K × V)} {k : K} (h : k ∈ mkeys m) :
    (mlookup m k).isSome = true := by
  induction m with
  | nil => simp [mkeys] at h
  | cons hd tl ih =>
    obtain ⟨a, b⟩ := hd
    rw [mkeys_cons] at h
    by_cases h1 : a = k
    · simp [mlookup, h1]
    · have h2 : k ∈ mkeys tl := by
        rcases List.mem_cons.mp h with h | h
        · exact absurd h.symm h1
        · exact h
      simp [mlookup, h1, ih h2]

theorem mkeys_mset {K V : Type} [DecidableEq K] (m : List (K × V)) (k : K)
    (v : V) :
    mkeys (mset m k v)
      = if (mlookup m k).isSome then mkeys m else mkeys m ++ [k] := by
  induction m with
  | nil => simp [mset, mkeys, mlookup]
  | cons hd tl ih =>
    obtain ⟨a, b⟩ := hd
    by_cases h1 : a = k
    · subst h1
      simp [mset, mkeys, mlookup]
    · by_cases h2 : (mlookup tl k).isSome
      · simp [mset, mkeys, mlookup, h1, h2] at ih ⊢
        exact ih
      · simp [mset, mkeys, mlookup, h1, h2] at ih ⊢
        exact ih

theorem nodup_mkeys_mset {K V : Type} [DecidableEq K] (m : List (K × V))
    (k : K) (v : V) (h : (mkeys m).Nodup) : (mkeys (mset m k v)).Nodup := by
  rw [mkeys_mset]
  by_cases hk : (mlookup m k).isSome
  · simp [hk, h]
  · have hnotMem : k ∉ mkeys m := fun hmem => hk (mlookup_isSome_of_mem_mkeys hmem)
    rw [if_neg hk, List.Perm.nodup_iff (List.perm_append_singleton _ _)]
    exact List.nodup_cons.mpr ⟨hnotMem, h⟩

theorem mkeys_merase_sublist {K V : Type} [DecidableEq K]
    (m : List (K × V)) (k : K) :
    (mkeys (merase m k)).Sublist (mkeys m) := by
  induction m with
  | nil => simp [merase, mkeys]
  | cons hd tl ih =>
    obtain ⟨a, b⟩ := hd
    by_cases h1 : a = k
    · simp only [merase, if_pos h1]
      rw [mkeys_cons]
      exact ih.cons a
    · simp only [merase, if_neg h1]
      rw [mkeys_cons, mkeys_cons]
      exact ih.cons₂ a

theorem nodup_mkeys_merase {K V : Type} [DecidableEq K] (m : List (K × V))
    (k : K) (h : (mkeys m).Nodup) : (mkeys (merase m k)).Nodup :=
  List.Nodup.sublist (mkeys_merase_sublist m k) h

theorem nodupAdj_mset (m : List (UID × Node)) (u : UID) (n : Node)
    (h : nodupAdj m)
    (hn : (mkeys n.outgoingEdges).Nodup ∧ (mkeys n.incomingEdges).Nodup) :
    nodupAdj (mset m u n) := by
  intro w x hx
  by_cases hw : u = w
  · subst hw
    rw [mlookup_mset_self] at hx
    injection hx with hx
    subst hx
    exact hn
  · rw [mlookup_mset_ne _ _ _ _ hw] at hx
    exact h _ _ hx

theorem nodupAdj_merase (m : List (UID × Node)) (u : UID) (h : nodupAdj m) :
    nodupAdj (merase m u) := by
  intro w x hx
  rw [mlookup_merase] at hx
  by_cases hw : u = w
  · rw [if_pos hw] at hx
    exact absurd hx (by simp)
  · rw [if_neg hw] at hx
    exact h _ _ hx

theorem foldl_preserves {α β : Type} (P : α → Prop) (f : α → β → α)
    (hf : ∀ a b, P a → P (f a b)) :
    ∀ (l : List β) (a : α), P a → P (l.foldl f a) := by
  intro l
  induction l with
  | nil => intro a ha; exact ha
  | cons hd tl ih =>
    intro a ha
    rw [List.foldl_cons]
    exact ih _ (hf a hd ha)

theorem nodupAdj_applyPendingEdge (uid : UID) (acc : List (UID × Node))
    (p : PendingEdge) (h : nodupAdj acc) :
    nodupAdj (applyPendingEdge uid acc p) := by
  unfold applyPendingEdge
  rcases hf : mlookup acc p.fromUID with _ | fromNode
  · exact h
  · dsimp only
    have h1 : nodupAdj (mset acc p.fromUID
        { fromNode with
            outgoingEdges := mset fromNode.outgoingEdges uid (pendingEdgeFor uid p) }) := by
      apply nodupAdj_mset _ _ _ h
      obtain ⟨ho, hi⟩ := h _ _ hf
      exact ⟨nodup_mkeys_mset _ _ _ ho, hi⟩
    split
    · exact h1
    · rename_i nd hEq
      apply nodupAdj_mset _ _ _ h1
      obtain ⟨ho, hi⟩ := h1 _ _ hEq
      exact ⟨ho, nodup_mkeys_mset _ _ _ hi⟩

theorem nodupAdj_applyReversePendingEdge (uid : UID) (acc : List (UID × Node))
    (rp : ReversePendingEdge) (h : nodupAdj acc) :
    nodupAdj (applyReversePendingEdge uid acc rp) := by
  unfold applyReversePendingEdge
  rcases ht : mlookup acc rp.toUID with _ | t0
  · exact h
  · dsimp only
    rcases hu : mlookup acc uid with _ | nd0
    · dsimp only
      rw [ht]
      dsimp only
      apply nodupAdj_mset _ _ _ h
      obtain ⟨ho, hi⟩ := h _ _ ht
      exact ⟨ho, nodup_mkeys_mset _ _ _ hi⟩
    · dsimp only
      have h1 : nodupAdj (mset acc uid
          { nd0 with
              outgoingEdges := mset nd0.outgoingEdges rp.toUID
                { etype := rp.edgeType, fromUID := uid, toUID := rp.toUID } }) := by
        apply nodupAdj_mset _ _ _ h
        obtain ⟨ho, hi⟩ := h _ _ hu
        exact ⟨nodup_mkeys_mset _ _ _ ho, hi⟩
      split
      · exact h1
      · rename_i toNode hEq
        apply nodupAdj_mset _ _ _ h1
        obtain ⟨ho, hi⟩ := h1 _ _ hEq
        exact ⟨ho, nodup_mkeys_mset _ _ _ hi⟩

theorem nodupAdj_processPending (g : Graph) (node : Node)
    (h : nodupAdj g.nodes) :
    nodupAdj (processPendingEdgesForNode g node).nodes := by
  unfold processPendingEdgesForNode
  dsimp only
  apply foldl_preserves nodupAdj _
    (fun a kv ha => foldl_preserves nodupAdj _
      (fun a2 rp ha2 => nodupAdj_applyReversePendingEdge node.uid a2 rp ha2)
      kv.2 a ha)
  apply foldl_preserves nodupAdj _
    (fun a kv ha => foldl_preserves nodupAdj _
      (fun a2 p ha2 => nodupAdj_applyPendingEdge node.uid a2 p ha2)
      kv.2 a ha)
  exact h

theorem nodupAdj_addNode (g : Graph) (node : Node) (h : nodupAdj g.nodes)
    (hn : (mkeys node.outgoingEdges).Nodup ∧ (mkeys node.incomingEdges).Nodup) :
    nodupAdj (addNode g node).nodes := by
  unfold addNode
  dsimp only
  have hpre : (match mlookup g.nodes node.uid with
      | some oldNode => removeFromIndexes g oldNode
      | none => g).nodes = g.nodes := by
    rcases mlookup g.nodes node.uid with _ | old <;> rfl
  have hbase : nodupAdj (mset (match mlookup g.nodes node.uid with
      | some oldNode => removeFromIndexes g oldNode
      | none => g).nodes node.uid node) := by
    rw [hpre]
    exact nodupAdj_mset _ _ _ h hn
  split
  · exact hbase
  · exact nodupAdj_processPending _ _ hbase

theorem nodupAdj_removeNode (g : Graph) (uid : UID) (h : nodupAdj g.nodes) :
    nodupAdj (removeNode g uid).nodes := by
  unfold removeNode
  rcases hs : mlookup g.nodes uid with _ | node
  · exact h
  · dsimp only
    apply nodupAdj_merase
    apply foldl_preserves nodupAdj _ ?stepIn _ _
      (foldl_preserves nodupAdj _ ?stepOut _ _ h)
    case stepIn =>
      intro a kv ha
      dsimp only
      split
      · rename_i fromNode hEq
        apply nodupAdj_mset _ _ _ ha
        obtain ⟨ho, hi⟩ := ha _ _ hEq
        exact ⟨nodup_mkeys_merase _ _ ho, hi⟩
      · exact ha
    case stepOut =>
      intro a kv ha
      dsimp only
      split
      · rename_i toNode hEq
        apply nodupAdj_mset _ _ _ ha
        obtain ⟨ho, hi⟩ := ha _ _ hEq
        exact ⟨ho, nodup_mkeys_merase _ _ hi⟩
      · exact ha

theorem nodupAdj_addEdge (g : Graph) (e : Edge) (h : nodupAdj g.nodes) :
    nodupAdj (addEdge g e).1.nodes := by
  unfold addEdge
  rcases hf : mlookup g.nodes e.fromUID with _ | fromNode
  · exact h
  · rcases ht : mlookup g.nodes e.toUID with _ | tN
    · exact h
    · dsimp only
      have h1 : nodupAdj (mset g.nodes e.fromUID
          { fromNode with
              outgoingEdges := mset fromNode.outgoingEdges e.toUID e }) := by
        apply nodupAdj_mset _ _ _ h
        obtain ⟨ho, hi⟩ := h _ _ hf
        exact ⟨nodup_mkeys_mset _ _ _ ho, hi⟩
      split
      · rename_i toNode hEq
        apply nodupAdj_mset _ _ _ h1
        obtain ⟨ho, hi⟩ := h1 _ _ hEq
        exact ⟨ho, nodup_mkeys_mset _ _ _ hi⟩
      · exact h1

theorem nodupAdj_removeEdge (g : Graph) (f t : UID) (h : nodupAdj g.nodes) :
    nodupAdj (removeEdge g f t).nodes := by
  unfold removeEdge
  rcases hf : mlookup g.nodes f with _ | fromNode
  · dsimp only
    split
    · rename_i toNode hEq
      apply nodupAdj_mset _ _ _ h
      obtain ⟨ho, hi⟩ := h _ _ hEq
      exact ⟨ho, nodup_mkeys_merase _ _ hi⟩
    · exact h
  · dsimp only
    have h1 : nodupAdj (mset g.nodes f
        { fromNode with outgoingEdges := merase fromNode.outgoingEdges t }) := by
      apply nodupAdj_mset _ _ _ h
      obtain ⟨ho, hi⟩ := h _ _ hf
      exact ⟨nodup_mkeys_merase _ _ ho, hi⟩
    split
    · rename_i toNode hEq
      apply nodupAdj_mset _ _ _ h1
      obtain ⟨ho, hi⟩ := h1 _ _ hEq
      exact ⟨ho, nodup_mkeys_merase _ _ hi⟩
    · exact h1

theorem nodupAdj_applyStoreOp (g : Graph) (op : StoreOp)
    (h : nodupAdj g.nodes) (hwf : WFOp op) :
    nodupAdj (applyStoreOp g op).nodes := by
  cases op with
  | upsert n => exact nodupAdj_addNode g n h hwf
  | remove u => exact nodupAdj_removeNode g u h
  | addE e => exact nodupAdj_addEdge g e h
  | removeE f t => exact nodupAdj_removeEdge g f t h
  | addPend f r ty => exact h
  | addRevPend t r ty => exact h

theorem nodupAdj_foldl_storeOps (ops : List StoreOp) :
    ∀ g, nodupAdj g.nodes → (∀ op ∈ ops, WFOp op) →
      nodupAdj ((ops.foldl applyStoreOp g)).nodes := by
  induction ops with
  | nil => intro g h _; exact h
  | cons hd tl ih =>
    intro g h hwf
    rw [List.foldl_cons]
    exact ih _ (nodupAdj_applyStoreOp g hd h (hwf hd (List.mem_cons_self hd tl)))
      (fun op hop => hwf op (List.mem_cons_of_mem hd hop))

theorem nodupAdj_applyStoreOps (ops : List StoreOp)
    (hwf : ∀ op ∈ ops, WFOp op) : nodupAdj (applyStoreOps ops).nodes := by
  refine nodupAdj_foldl_storeOps ops emptyGraph ?_ hwf
  intro u n hn
  rw [show mlookup emptyGraph.nodes u = none from rfl] at hn
  exact Option.noConfusion hn

theorem addEdge_isSome (g : Graph) (e : Edge) (w : UID) :
    (mlookup (addEdge g e).1.nodes w).isSome = (mlookup g.nodes w).isSome := by
  unfold addEdge
  rcases hf : mlookup g.nodes e.fromUID with _ | fromNode
  · rfl
  · rcases ht : mlookup g.nodes e.toUID with _ | tN
    · rfl
    · dsimp only
      have h1 : ∀ w2, (mlookup (mset g.nodes e.fromUID
          { fromNode with
              outgoingEdges := mset fromNode.outgoingEdges e.toUID e }) w2).isSome
            = (mlookup g.nodes w2).isSome :=
        fun w2 => mset_isSome_of_present _ _ _ _ (by simp [hf])
      split
      · rename_i toNode hEq
        rw [mset_isSome_of_present _ _ _ _ (by simp [hEq]), h1]
      · exact h1 w

theorem addEdge_establishes (g : Graph) (e : Edge)
    (hf0 : (mlookup g.nodes e.fromUID).isSome = true)
    (ht0 : (mlookup g.nodes e.toUID).isSome = true) :
    ∃ fn, mlookup (addEdge g e).1.nodes e.fromUID = some fn ∧
      mlookup fn.outgoingEdges e.toUID = some e := by
  rcases hf : mlookup g.nodes e.fromUID with _ | fromNode
  · rw [hf] at hf0
    simp at hf0
  · rcases ht : mlookup g.nodes e.toUID with _ | tN
    · rw [ht] at ht0
      simp at ht0
    · unfold addEdge
      rw [hf, ht]
      dsimp only
      by_cases hft : e.fromUID = e.toUID
      · rw [← hft]
        rw [mlookup_mset_self]
        dsimp only
        refine ⟨{ fromNode with
            outgoingEdges := mset fromNode.outgoingEdges e.fromUID e,
            incomingEdges := mset fromNode.incomingEdges e.fromUID e }, ?_, ?_⟩
        · exact mlookup_mset_self _ _ _
        · exact mlookup_mset_self _ _ _
      · rw [mlookup_mset_ne _ _ _ _ hft, ht]
        dsimp only
        refine ⟨{ fromNode with
            outgoingEdges := mset fromNode.outgoingEdges e.toUID e }, ?_, ?_⟩
        · rw [mlookup_mset_ne _ _ _ _ (fun hh => hft hh.symm)]
          exact mlookup_mset_self _ _ _
        · exact mlookup_mset_self _ _ _

/-- A second edge on the same ordered pair as `edgeAB` but with a
different type. -/
def edgeABowns : Edge := { etype := .owns, fromUID := "a", toUID := "b" }

/-- C10: for every graph reachable by store operations (with upserted
nodes carrying duplicate-free adjacency keys, as processor-built nodes
do), every node holds at most one outgoing and one incoming edge per peer
UID; and adding an edge for a pair that already has an edge of a
different type replaces it — the new edge is what the adjacency map holds
and the pair still has at most one edge. -/
theorem claim_C10_single_edge_per_pair (ops : List StoreOp)
    (hwf : ∀ op ∈ ops, WFOp op) :
    (∀ u n, mlookup (applyStoreOps ops).nodes u = some n →
      ∀ t, (mkeys n.outgoingEdges).count t ≤ 1 ∧
           (mkeys n.incomingEdges).count t ≤ 1) ∧
    (∀ e e2 : Edge, e2.fromUID = e.fromUID → e2.toUID = e.toUID →
      (mlookup (applyStoreOps ops).nodes e.fromUID).isSome = true →
      (mlookup (applyStoreOps ops).nodes e.toUID).isSome = true →
      ∃ fn, mlookup (applyStoreOps (ops ++ [.addE e, .addE e2])).nodes
              e2.fromUID = some fn ∧
        mlookup fn.outgoingEdges e2.toUID = some e2 ∧
        (mkeys fn.outgoingEdges).count e2.toUID ≤ 1) := by
  constructor
  · intro u n hn t
    obtain ⟨ho, hi⟩ := nodupAdj_applyStoreOps ops hwf u n hn
    exact ⟨List.nodup_iff_count_le_one.mp ho t,
      List.nodup_iff_count_le_one.mp hi t⟩
  · intro e e2 hef het hfs hts
    have hwf2 : ∀ op ∈ ops ++ [StoreOp.addE e, StoreOp.addE e2], WFOp op := by
      intro op hop
      rcases List.mem_append.mp hop with hop | hop
      · exact hwf op hop
      · simp only [List.mem_cons, List.not_mem_nil, or_false] at hop
        rcases hop with hop | hop <;> subst hop <;> trivial
    have happ : applyStoreOps (ops ++ [StoreOp.addE e, StoreOp.addE e2])
        = (addEdge (addEdge (applyStoreOps ops) e).1 e2).1 := by
      unfold applyStoreOps
      rw [List.foldl_append]
      rfl
    have hfs1 : (mlookup (addEdge (applyStoreOps ops) e).1.nodes e2.fromUID).isSome = true := by
      rw [addEdge_isSome, hef]
      exact hfs
    have hts1 : (mlookup (addEdge (applyStoreOps ops) e).1.nodes e2.toUID).isSome = true := by
      rw [addEdge_isSome, het]
      exact hts
    obtain ⟨fn, hfn, hout⟩ := addEdge_establishes _ e2 hfs1 hts1
    refine ⟨fn, ?_, hout, ?_⟩
    · rw [happ]
      exact hfn
    · have hN := nodupAdj_applyStoreOps _ hwf2 e2.fromUID fn (by rw [happ]; exact hfn)
      exact List.nodup_iff_count_le_one.mp hN.1 e2.toUID

/-- C10 witness: in a graph built from two upserts, adding the `selects`
edge and then an `owns` edge on the same pair leaves the `owns` edge in
the source's outgoing map, with at most one edge recorded for the pair. -/
theorem claim_C10_witness :
    ∃ fn, mlookup (applyStoreOps
        ([StoreOp.upsert nodeSvcA, StoreOp.upsert nodePodB]
          ++ [StoreOp.addE edgeAB, StoreOp.addE edgeABowns])).nodes
        "a" = some fn ∧
      mlookup fn.outgoingEdges "b" = some edgeABowns ∧
      (mkeys fn.outgoingEdges).count "b" ≤ 1 :=
  (claim_C10_single_edge_per_pair
      [StoreOp.upsert nodeSvcA, StoreOp.upsert nodePodB] (by decide)).2
    edgeAB edgeABowns rfl rfl (by decide) (by decide)

/-! ### C6: release isolation of `expandRelatedNodes` -/

/-- A node admissible to the expansion of a release: it carries the
requested release, or it is unmanaged and reachable by one edge from a
node whose UID is marked as belonging to the release. -/
def goodExpand (g : Graph) (releaseName : String) (releaseNodes : List UID)
    (x : Node) : Prop :=
  x.helmRelease = releaseName ∨
    (x.helmRelease = "" ∧ ∃ c : Node, c.uid ∈ releaseNodes ∧
      x ∈ neighboursOf g c)

theorem foldl_preserves_mem {α β : Type} (P : α → Prop) (f : α → β → α)
    (l : List β) (hf : ∀ a b, b ∈ l → P a → P (f a b)) :
    ∀ a, P a → P (l.foldl f a) := by
  induction l with
  | nil => intro a ha; exact ha
  | cons hd tl ih =>
    intro a ha
    rw [List.foldl_cons]
    exact ih (fun a2 b hb ha2 => hf a2 b (List.mem_cons_of_mem hd hb) ha2) _
      (hf a hd (List.mem_cons_self hd tl) ha)

theorem expandVisit_good (g : Graph) (releaseName : String)
    (releaseNodes : List UID) (ns : String) (current : Node)
    (acc : List UID × List Node × List Node) (nb : Node)
    (hrel : releaseName ≠ "")
    (hnb : nb ∈ neighboursOf g current)
    (h : ∀ x ∈ acc.2.2, goodExpand g releaseName releaseNodes x) :
    ∀ x ∈ (expandVisit releaseName releaseNodes ns current acc nb).2.2,
      goodExpand g releaseName releaseNodes x := by
  obtain ⟨seen, queue, ordered⟩ := acc
  unfold expandVisit
  dsimp only
  split
  · exact h
  · split
    · exact h
    · split
      · exact h
      · split
        · exact h
        · split
          · exact h
          · rename_i h1 h2 h3 h4 h5
            intro x hx
            rcases List.mem_append.mp hx with hx | hx
            · exact h x hx
            · rw [List.mem_singleton] at hx
              subst hx
              by_cases hem : x.helmRelease = ""
              · refine Or.inr ⟨hem, current, ?_, hnb⟩
                by_contra hc
                exact h3 ⟨hrel, hem, hc⟩
              · refine Or.inl ?_
                by_contra hc
                exact h4 ⟨hrel, hem, hc⟩

theorem expandLoop_good (g : Graph) (ns releaseName : String)
    (releaseNodes : List UID) (hrel : releaseName ≠ "") :
    ∀ (fuel : Nat) (seen : List UID) (queue ordered : List Node),
      (∀ x ∈ ordered, goodExpand g releaseName releaseNodes x) →
      ∀ x ∈ expandLoop g ns releaseName releaseNodes fuel seen queue ordered,
        goodExpand g releaseName releaseNodes x := by
  intro fuel
  induction fuel with
  | zero => intro seen queue ordered h; exact h
  | succ fuel ih =>
    intro seen queue ordered h
    cases queue with
    | nil => exact h
    | cons current rest =>
      rw [expandLoop]
      apply ih
      exact foldl_preserves_mem
        (fun acc => ∀ x ∈ acc.2.2, goodExpand g releaseName releaseNodes x)
        (expandVisit releaseName releaseNodes ns current)
        (neighboursOf g current)
        (fun acc nb hnb hacc => expandVisit_good g releaseName releaseNodes ns
          current acc nb hrel hnb hacc)
        (seen, rest, ordered) h

/-- C6: for a base set whose members all carry the requested (non-empty)
release, `expandRelatedNodes` returns only nodes of that release, or
unmanaged nodes lying one edge away from a node with a base member's UID
— never a node of a different release. -/
theorem claim_C6_release_isolation (g : Graph) (base : List Node)
    (ns releaseName : String) (hrel : releaseName ≠ "")
    (hbase : ∀ b ∈ base, b.helmRelease = releaseName) :
    ∀ x ∈ expandRelatedNodes g base ns releaseName,
      x.helmRelease = releaseName ∨
      (x.helmRelease = "" ∧ ∃ c : Node,
        (∃ b ∈ base, b.uid = c.uid) ∧ x ∈ neighboursOf g c) := by
  intro x hx
  unfold expandRelatedNodes at hx
  split at hx
  · rename_i hb
    rw [hb] at hx
    simp at hx
  · dsimp only at hx
    have hmain := expandLoop_good g ns releaseName
      ((base.filter
        (fun n => releaseName ≠ "" ∧ n.helmRelease = releaseName)).map Node.uid)
      hrel (2 * (g.nodes.length + base.length) + 1) _ _ _ ?hinit x hx
    case hinit =>
      apply foldl_preserves_mem
        (fun acc => ∀ y ∈ acc.2.2,
          goodExpand g releaseName
            ((base.filter
              (fun n => releaseName ≠ "" ∧ n.helmRelease = releaseName)).map
              Node.uid) y)
        (fun acc node =>
          if node.uid ∈ acc.1 then acc
          else (acc.1 ++ [node.uid], acc.2.1 ++ [node], acc.2.2 ++ [node]))
        base ?step ([], [], []) ?base0
      case base0 => intro y hy; simp at hy
      case step =>
        intro acc b hb hacc
        obtain ⟨seen, queue, ordered⟩ := acc
        dsimp only
        split
        · exact hacc
        · intro y hy
          rcases List.mem_append.mp hy with hy | hy
          · exact hacc y hy
          · rw [List.mem_singleton] at hy
            subst hy
            exact Or.inl (hbase _ hb)
    rcases hmain with hmain | ⟨hem, c, hc, hnbr⟩
    · exact Or.inl hmain
    · refine Or.inr ⟨hem, c, ?_, hnbr⟩
      rcases List.mem_map.mp hc with ⟨b, hb, hbu⟩
      exact ⟨b, (List.mem_filter.mp hb).1, hbu⟩

/-- A Service node belonging to the release `myrel`. -/
def nodeRel : Node :=
  { uid := "r1", name := "svc-r", ns := "demo", kind := "Service",
    apiVersion := "v1", helmRelease := "myrel" }

/-- An unmanaged Pod node (no release). -/
def nodeU : Node :=
  { uid := "u1", name := "pod-u", ns := "demo", kind := "Pod",
    apiVersion := "v1" }

/-- The edge between the release node and the unmanaged node. -/
def edgeRU : Edge := { etype := .selects, fromUID := "r1", toUID := "u1" }

/-- Graph holding the release node, the unmanaged node and the edge. -/
def graphRel : Graph :=
  (addEdge (addNode (addNode emptyGraph nodeRel) nodeU) edgeRU).1

/-- The base set the server would pass: the stored Service nodes. -/
def baseRel : List Node := getNodesByNamespaceKind graphRel "demo" "Service"

/-- The stored form of the unmanaged node after the edge was added. -/
def nodeUIn : Node := { nodeU with incomingEdges := [("r1", edgeRU)] }

/-- C6 witness: expanding the `myrel` base over the fixture graph admits
the unmanaged neighbour, and the theorem certifies it is unmanaged and
one edge away from a base UID. -/
theorem claim_C6_witness :
    nodeUIn.helmRelease = "myrel" ∨
    (nodeUIn.helmRelease = "" ∧ ∃ c : Node,
      (∃ b ∈ baseRel, b.uid = c.uid) ∧ nodeUIn ∈ neighboursOf graphRel c) :=
  claim_C6_release_isolation graphRel baseRel "demo" "myrel" (by decide)
    (by decide) nodeUIn (by decide)

/-! ### C5: is the ADD upsert idempotent? -/

theorem mset_mset {K V : Type} [DecidableEq K] (m : List (K × V)) (k : K)
    (v w : V) : mset (mset m k v) k w = mset m k w := by
  induction m with
  | nil => simp [mset]
  | cons hd tl ih =>
    obtain ⟨a, b⟩ := hd
    by_cases h1 : a = k
    · subst h1
      simp [mset]
    · simp [mset, h1, ih]

theorem mset_mset_comm_present {K V : Type} [DecidableEq K]
    (m : List (K × V)) (k k' : K) (v v' : V)
    (hp : (mlookup m k).isSome = true) (hne : k ≠ k') :
    mset (mset m k' v') k v = mset (mset m k v) k' v' := by
  induction m with
  | nil => simp [mlookup] at hp
  | cons hd tl ih =>
    obtain ⟨a, b⟩ := hd
    by_cases h1 : a = k
    · subst h1
      have h2 : ¬(a = k') := hne
      simp [mset, h2, hne]
    · by_cases h2 : a = k'
      · subst h2
        simp [mset, h1, fun hh => h1 hh]
      · have hp' : (mlookup tl k).isSome = true := by
          simpa [mlookup, h1] using hp
        simp [mset, h1, h2, ih hp']

theorem merase_mset_comm {K V : Type} [DecidableEq K] (m : List (K × V))
    (k k' : K) (v' : V) (hne : k ≠ k') :
    merase (mset m k' v') k = mset (merase m k) k' v' := by
  induction m with
  | nil =>
    have h2 : ¬(k' = k) := fun hh => hne hh.symm
    simp [mset, merase, h2]
  | cons hd tl ih =>
    obtain ⟨a, b⟩ := hd
    by_cases h1 : a = k
    · subst h1
      have h2 : ¬(a = k') := hne
      simp [mset, merase, h2, ih]
    · by_cases h2 : a = k'
      · subst h2
        have h3 : ¬(a = k) := h1
        simp [mset, merase, h1, h3]
      · simp [mset, merase, h1, h2, ih]

theorem merase_append_single {K V : Type} [DecidableEq K] (m : List (K × V))
    (k : K) (v : V) (h : mlookup m k = none) : merase (m ++ [(k, v)]) k = m := by
  induction m with
  | nil => simp [merase]
  | cons hd tl ih =>
    obtain ⟨a, b⟩ := hd
    by_cases h1 : a = k
    · simp [mlookup, h1] at h
    · simp only [mlookup, if_neg h1] at h
      simp [merase, h1, ih h]

theorem removeRelease_addRelease (idx : List (String × List UID)) (rel : String)
    (u : UID) (hwf : ∀ kv ∈ idx, kv.2 ≠ []) (hnu : ∀ kv ∈ idx, u ∉ kv.2) :
    removeRelease (addRelease idx rel u) rel u = idx := by
  unfold addRelease removeRelease
  rcases hr : mlookup idx rel with _ | old
  · dsimp only [Option.getD]
    rw [mlookup_mset_self]
    dsimp only
    rw [show removeUID (List.nil ++ [u]) u = [] from by simp [removeUID]]
    rw [if_pos rfl]
    rw [mset_of_lookup_none _ _ _ hr]
    exact merase_append_single _ _ _ hr
  · have hune : u ∉ old := hnu _ (mem_of_mlookup hr)
    have holdne : old ≠ [] := hwf _ (mem_of_mlookup hr)
    dsimp only [Option.getD]
    rw [mlookup_mset_self]
    dsimp only
    rw [removeUID_append_self _ _ hune]
    rw [if_neg holdne]
    rw [mset_mset]
    exact mset_of_lookup_some _ _ _ hr

theorem removeTwoLevel_addTwoLevel
    (idx : List (String × List (String × List UID))) (k1 k2 : String) (u : UID)
    (hwfA : ∀ kv ∈ idx, kv.2 ≠ [])
    (hwfB : ∀ kv ∈ idx, ∀ kl ∈ kv.2, kl.2 ≠ ([] : List UID))
    (hnu : ∀ kv ∈ idx, ∀ kl ∈ kv.2, u ∉ kl.2) :
    removeTwoLevel (addTwoLevel idx k1 k2 u) k1 k2 u = idx := by
  unfold addTwoLevel removeTwoLevel
  rcases hk1 : mlookup idx k1 with _ | inner
  · dsimp only [Option.getD, mlookup]
    rw [mlookup_mset_self]
    dsimp only
    rw [mlookup_mset_self]
    dsimp only
    rw [show removeUID (List.nil ++ [u]) u = [] from by simp [removeUID]]
    rw [if_pos rfl]
    rw [show merase (mset (List.nil : List (String × List UID)) k2 (List.nil ++ [u])) k2
        = [] from by
      rw [mset_of_lookup_none (List.nil : List (String × List UID)) k2 _ rfl]
      exact merase_append_single (List.nil : List (String × List UID)) k2 _ rfl]
    rw [if_pos rfl]
    rw [mset_of_lookup_none _ _ _ hk1]
    exact merase_append_single _ _ _ hk1
  · have hinnerne : inner ≠ [] := hwfA _ (mem_of_mlookup hk1)
    dsimp only [Option.getD]
    rcases hk2 : mlookup inner k2 with _ | old2
    · dsimp only [Option.getD]
      rw [mlookup_mset_self]
      dsimp only
      rw [mlookup_mset_self]
      dsimp only
      rw [show removeUID (List.nil ++ [u]) u = [] from by simp [removeUID]]
      rw [if_pos rfl]
      rw [show merase (mset inner k2 (List.nil ++ [u])) k2 = inner from by
        rw [mset_of_lookup_none _ _ _ hk2]
        exact merase_append_single _ _ _ hk2]
      rw [if_neg hinnerne]
      rw [mset_mset]
      exact mset_of_lookup_some _ _ _ hk1
    · have hu2 : u ∉ old2 := hnu _ (mem_of_mlookup hk1) _ (mem_of_mlookup hk2)
      have hold2ne : old2 ≠ [] := hwfB _ (mem_of_mlookup hk1) _ (mem_of_mlookup hk2)
      dsimp only [Option.getD]
      rw [mlookup_mset_self]
      dsimp only
      rw [mlookup_mset_self]
      dsimp only
      rw [removeUID_append_self _ _ hu2]
      rw [if_neg hold2ne]
      rw [mset_mset]
      rw [mset_of_lookup_some _ _ _ hk2]
      rw [if_neg hinnerne]
      rw [mset_mset]
      exact mset_of_lookup_some _ _ _ hk1

theorem removeTwoLevel_addTwoLevel_comm_aux
    (idx : List (String × List (String × List UID))) (k1 k1' k2' : String)
    (u : UID) (I : List (String × List UID))
    (hp : (mlookup idx k1).isSome = true) (hne : k1 ≠ k1') :
    (if I = [] then
        merase (mset idx k1' (mset ((mlookup idx k1').getD []) k2'
          (((mlookup ((mlookup idx k1').getD []) k2').getD []) ++ [u]))) k1
      else mset (mset idx k1' (mset ((mlookup idx k1').getD []) k2'
          (((mlookup ((mlookup idx k1').getD []) k2').getD []) ++ [u]))) k1 I)
      = addTwoLevel (if I = [] then merase idx k1 else mset idx k1 I) k1' k2' u := by
  by_cases hIe : I = []
  · rw [if_pos hIe, if_pos hIe]
    unfold addTwoLevel
    rw [show mlookup (merase idx k1) k1' = mlookup idx k1' from by
      rw [mlookup_merase]; exact if_neg hne]
    exact merase_mset_comm _ _ _ _ hne
  · rw [if_neg hIe, if_neg hIe]
    unfold addTwoLevel
    rw [show mlookup (mset idx k1 I) k1' = mlookup idx k1' from
      mlookup_mset_ne _ _ _ _ hne]
    exact mset_mset_comm_present _ _ _ _ _ hp hne

theorem removeTwoLevel_addTwoLevel_comm
    (idx : List (String × List (String × List UID))) (k1 k2 : String) (u : UID)
    (k1' k2' : String) (hne : k1 ≠ k1') :
    removeTwoLevel (addTwoLevel idx k1' k2' u) k1 k2 u
      = addTwoLevel (removeTwoLevel idx k1 k2 u) k1' k2' u := by
  rcases hk1 : mlookup idx k1 with _ | inner
  · unfold removeTwoLevel
    rw [hk1]
    rw [show mlookup (addTwoLevel idx k1' k2' u) k1 = none from by
      unfold addTwoLevel
      rw [mlookup_mset_ne _ _ _ _ (Ne.symm hne)]
      exact hk1]
  · unfold removeTwoLevel
    rw [hk1]
    rw [show mlookup (addTwoLevel idx k1' k2' u) k1 = some inner from by
      unfold addTwoLevel
      rw [mlookup_mset_ne _ _ _ _ (Ne.symm hne)]
      exact hk1]
    dsimp only
    exact removeTwoLevel_addTwoLevel_comm_aux idx k1 k1' k2' u
      (match mlookup inner k2 with
       | none => inner
       | some l =>
         if removeUID l u = [] then merase inner k2
         else mset inner k2 (removeUID l u))
      (by rw [hk1]; rfl) hne

theorem removeTwoLevel_foldAdd_comm (tl : List (String × String)) (u : UID)
    (k1 k2 : String) :
    ∀ idx, (∀ kv ∈ tl, k1 ≠ kv.1) →
      removeTwoLevel
          (tl.foldl (fun acc kv => addTwoLevel acc kv.1 kv.2 u) idx) k1 k2 u
        = tl.foldl (fun acc kv => addTwoLevel acc kv.1 kv.2 u)
            (removeTwoLevel idx k1 k2 u) := by
  induction tl with
  | nil => intro idx _; rfl
  | cons hd tl2 ih =>
    intro idx hk
    rw [List.foldl_cons, List.foldl_cons]
    rw [ih _ (fun kv hkv => hk kv (List.mem_cons_of_mem hd hkv))]
    rw [removeTwoLevel_addTwoLevel_comm idx k1 k2 u hd.1 hd.2
      (hk hd (List.mem_cons_self hd tl2))]

theorem foldRemove_foldAdd (l : List (String × String)) (u : UID) :
    ∀ idx : List (String × List (String × List UID)),
      (l.map Prod.fst).Nodup →
      (∀ kv ∈ idx, kv.2 ≠ []) →
      (∀ kv ∈ idx, ∀ kl ∈ kv.2, kl.2 ≠ ([] : List UID)) →
      (∀ kv ∈ idx, ∀ kl ∈ kv.2, u ∉ kl.2) →
      l.foldl (fun acc kv => removeTwoLevel acc kv.1 kv.2 u)
        (l.foldl (fun acc kv => addTwoLevel acc kv.1 kv.2 u) idx) = idx := by
  induction l with
  | nil => intro idx _ _ _ _; rfl
  | cons hd tl ih =>
    intro idx hnd hwfA hwfB hnu
    rw [List.map_cons] at hnd
    obtain ⟨hnm, hndtl⟩ := List.nodup_cons.mp hnd
    rw [List.foldl_cons, List.foldl_cons]
    rw [removeTwoLevel_foldAdd_comm tl u hd.1 hd.2 _
      (by
        intro kv hkv hh
        exact hnm (by rw [hh]; exact List.mem_map_of_mem Prod.fst hkv))]
    rw [removeTwoLevel_addTwoLevel idx hd.1 hd.2 u hwfA hwfB hnu]
    exact ih idx hndtl hwfA hwfB hnu

theorem processPending_noop (g : Graph) (node : Node)
    (hp : g.pendingEdges.filter
      (fun kv => matchesRef kv.1 node.ns node.kind node.name) = [])
    (hr : g.reversePendingEdges.filter
      (fun kv => matchesRef kv.1 node.ns node.kind node.name) = []) :
    processPendingEdgesForNode g node = g := by
  unfold processPendingEdgesForNode
  rw [hp]
  dsimp only
  rw [hr]
  rfl

theorem addNode_update_shape (g : Graph) (n : Node) (old : Node)
    (hup : mlookup g.nodes n.uid = some old) :
    addNode g n = addToIndexes
      { removeFromIndexes g old with
          nodes := mset (removeFromIndexes g old).nodes n.uid n } n := by
  unfold addNode
  rw [hup]
  rfl

theorem Graph.ext (g1 g2 : Graph) (h1 : g1.nodes = g2.nodes)
    (h2 : g1.byNamespaceKind = g2.byNamespaceKind)
    (h3 : g1.byHelmRelease = g2.byHelmRelease)
    (h4 : g1.byLabel = g2.byLabel)
    (h5 : g1.pendingEdges = g2.pendingEdges)
    (h6 : g1.reversePendingEdges = g2.reversePendingEdges) : g1 = g2 := by
  cases g1
  cases g2
  simp_all

/-- C5: the ADD upsert is idempotent only under side conditions the claim
omits: the UID is fresh, no pending or reverse-pending entry matches the
node's (kind, namespace, name), the node's label keys are duplicate-free,
and the indexes are well-formed (no empty lists) and do not yet hold the
UID.  Under these conditions upserting the same node twice equals
upserting it once; without them the drain-on-first-insert makes the
second upsert observable. -/
theorem claim_C5_add_idempotent (g : Graph) (n : Node)
    (hfresh : mlookup g.nodes n.uid = none)
    (hpend : ∀ kv ∈ g.pendingEdges, matchesRef kv.1 n.ns n.kind n.name = false)
    (hrev : ∀ kv ∈ g.reversePendingEdges,
      matchesRef kv.1 n.ns n.kind n.name = false)
    (hlab : (n.labels.map Prod.fst).Nodup)
    (hwfNKA : ∀ kv ∈ g.byNamespaceKind, kv.2 ≠ [])
    (hwfNKB : ∀ kv ∈ g.byNamespaceKind, ∀ kl ∈ kv.2, kl.2 ≠ ([] : List UID))
    (hnuNK : ∀ kv ∈ g.byNamespaceKind, ∀ kl ∈ kv.2, n.uid ∉ kl.2)
    (hwfR : ∀ kv ∈ g.byHelmRelease, kv.2 ≠ [])
    (hnuR : ∀ kv ∈ g.byHelmRelease, n.uid ∉ kv.2)
    (hwfLA : ∀ kv ∈ g.byLabel, kv.2 ≠ [])
    (hwfLB : ∀ kv ∈ g.byLabel, ∀ kl ∈ kv.2, kl.2 ≠ ([] : List UID))
    (hnuL : ∀ kv ∈ g.byLabel, ∀ kl ∈ kv.2, n.uid ∉ kl.2) :
    addNode (addNode g n) n = addNode g n := by
  have hfilp : (addToIndexes { g with nodes := mset g.nodes n.uid n } n).pendingEdges.filter
      (fun kv => matchesRef kv.1 n.ns n.kind n.name) = [] :=
    List.filter_eq_nil.mpr (fun kv hkv => by rw [hpend kv hkv]; simp)
  have hfilr : (addToIndexes { g with nodes := mset g.nodes n.uid n } n).reversePendingEdges.filter
      (fun kv => matchesRef kv.1 n.ns n.kind n.name) = [] :=
    List.filter_eq_nil.mpr (fun kv hkv => by rw [hrev kv hkv]; simp)
  have hfirst : addNode g n
      = addToIndexes { g with nodes := mset g.nodes n.uid n } n := by
    rw [addNode_insert_shape g n hfresh]
    exact processPending_noop _ _ hfilp hfilr
  have hlook : mlookup (addToIndexes
      { g with nodes := mset g.nodes n.uid n } n).nodes n.uid = some n := by
    rw [addToIndexes_nodes]
    exact mlookup_mset_self _ _ _
  rw [hfirst, addNode_update_shape _ n n hlook]
  have hrem : removeFromIndexes
      (addToIndexes { g with nodes := mset g.nodes n.uid n } n) n
      = { g with nodes := mset g.nodes n.uid n } := by
    apply Graph.ext
    · rw [removeFromIndexes_nodes, addToIndexes_nodes]
    · show removeTwoLevel (addTwoLevel g.byNamespaceKind (nsKeyOf n) n.kind n.uid)
          (nsKeyOf n) n.kind n.uid = g.byNamespaceKind
      exact removeTwoLevel_addTwoLevel _ _ _ _ hwfNKA hwfNKB hnuNK
    · show (if n.helmRelease ≠ "" then
            removeRelease (if n.helmRelease ≠ "" then
                addRelease g.byHelmRelease n.helmRelease n.uid
              else g.byHelmRelease) n.helmRelease n.uid
          else (if n.helmRelease ≠ "" then
                addRelease g.byHelmRelease n.helmRelease n.uid
              else g.byHelmRelease))
        = g.byHelmRelease
      by_cases hre : n.helmRelease = ""
      · have hcond : ¬(n.helmRelease ≠ "") := fun hh => hh hre
        rw [if_neg hcond, if_neg hcond]
      · have hcond : n.helmRelease ≠ "" := hre
        rw [if_pos hcond, if_pos hcond]
        exact removeRelease_addRelease _ _ _ hwfR hnuR
    · show n.labels.foldl (fun acc kv => removeTwoLevel acc kv.1 kv.2 n.uid)
          (n.labels.foldl (fun acc kv => addTwoLevel acc kv.1 kv.2 n.uid)
            g.byLabel)
        = g.byLabel
      exact foldRemove_foldAdd n.labels n.uid g.byLabel hlab hwfLA hwfLB hnuL
    · rfl
    · rfl
  rw [hrem]
  show addToIndexes { g with nodes := mset (mset g.nodes n.uid n) n.uid n } n
      = addToIndexes { g with nodes := mset g.nodes n.uid n } n
  rw [mset_mset]

/-- A labelled ConfigMap node not yet present in the two-node fixture
graph. -/
def nodeC : Node :=
  { uid := "c", name := "cm-c", ns := "demo", kind := "ConfigMap",
    apiVersion := "v1", labels := [("app", "demo")] }

/-- C5 witness: under the side conditions (fresh UID, no matching pending
entries, well-formed indexes) the double upsert of the labelled node into
the two-node graph equals the single upsert. -/
theorem claim_C5_witness :
    addNode (addNode graphAB nodeC) nodeC = addNode graphAB nodeC :=
  claim_C5_add_idempotent graphAB nodeC (by decide) (by decide) (by decide)
    (by decide) (by decide) (by decide) (by decide) (by decide) (by decide)
    (by decide) (by decide) (by decide)

/-- Pending entry targeting the orphan Pod fixture's triple. -/
def refMypod : RefKey :=
  { gvk := { group := "", version := "v1", kind := "Pod" },
    ns := "demo", name := "mypod" }

/-- Graph with one Service and a pending edge waiting for the orphan
Pod. -/
def graphPendPod : Graph :=
  addPendingEdge (addNode emptyGraph nodeSvcA) "a" refMypod .selects

/-- C5 counterexample: delivering the same Pod ADD twice does not yield
the same graph as delivering it once — the first insert drains the
matching pending entry into the Pod's incoming map, and the second
(update) upsert replaces the node wholesale, losing that edge. -/
theorem claim_C5_cex :
    processPod (processPod graphPendPod podOrphan .add) podOrphan .add
      ≠ processPod graphPendPod podOrphan .add := by
  decide

/-! ### C3: what `removeNode` cleans up -/

/-- Reading a two-level index the way the Go code does (`idx[k1][k2]`;
missing keys yield the nil slice). -/
def indexRead2 (idx : List (String × List (String × List UID)))
    (k1 k2 : String) : List UID :=
  (mlookup ((mlookup idx k1).getD []) k2).getD []

/-- Reading a flat index (`idx[k]`; a missing key yields the nil
slice). -/
def indexRead1 (idx : List (String × List UID)) (k : String) : List UID :=
  (mlookup idx k).getD []

theorem merase_merase {K V : Type} [DecidableEq K] (m : List (K × V)) (k : K) :
    merase (merase m k) k = merase m k := by
  induction m with
  | nil => rfl
  | cons hd tl ih =>
    obtain ⟨a, b⟩ := hd
    by_cases h1 : a = k
    · simp [merase, h1, ih]
    · simp [merase, h1, ih]

theorem notmem_removeUID_of_count_le_one (l : List UID) (u : UID)
    (h : l.count u ≤ 1) : u ∉ removeUID l u := by
  intro hmem
  have h2 := count_removeUID_self l u
  have h3 : 0 < (removeUID l u).count u := List.count_pos_iff_mem.mpr hmem
  omega

theorem mset_ne_nil {K V : Type} [DecidableEq K] (m : List (K × V)) (k : K)
    (v : V) : mset m k v ≠ [] := by
  cases m with
  | nil => simp [mset]
  | cons hd tl =>
    obtain ⟨a, b⟩ := hd
    by_cases h1 : a = k <;> simp [mset, h1]

theorem merase_eq_nil_lookup {K V : Type} [DecidableEq K] (m : List (K × V))
    (k k' : K) (h : merase m k = []) (hne : k' ≠ k) : mlookup m k' = none := by
  induction m with
  | nil => rfl
  | cons hd tl ih =>
    obtain ⟨a, b⟩ := hd
    by_cases h1 : a = k
    · subst h1
      simp only [merase, if_pos rfl] at h
      have h2 : ¬(a = k') := fun hh => hne (hh.symm)
      simp [mlookup, h2, ih h]
    · simp [merase, h1] at h

theorem removeTwoLevel_lookup_ne
    (idx : List (String × List (String × List UID))) (K1 K2 : String)
    (u : UID) (k1 : String) (hne : k1 ≠ K1) :
    mlookup (removeTwoLevel idx K1 K2 u) k1 = mlookup idx k1 := by
  unfold removeTwoLevel
  rcases hk1 : mlookup idx K1 with _ | inner
  · rfl
  · dsimp only
    split
    · rw [mlookup_merase]
      exact if_neg (fun hh => hne hh.symm)
    · exact mlookup_mset_ne _ _ _ _ (fun hh => hne hh.symm)

theorem removeTwoLevel_read_ne
    (idx : List (String × List (String × List UID))) (K1 K2 : String)
    (u : UID) (k1 k2 : String) (hne : k1 ≠ K1) :
    indexRead2 (removeTwoLevel idx K1 K2 u) k1 k2 = indexRead2 idx k1 k2 := by
  unfold indexRead2
  rw [removeTwoLevel_lookup_ne _ _ _ _ _ hne]

theorem removeTwoLevel_read_self
    (idx : List (String × List (String × List UID))) (K1 K2 : String)
    (u : UID) (k2 : String) :
    indexRead2 (removeTwoLevel idx K1 K2 u) K1 k2
      = if k2 = K2 then removeUID (indexRead2 idx K1 K2) u
        else indexRead2 idx K1 k2 := by
  unfold indexRead2 removeTwoLevel
  rcases hk1 : mlookup idx K1 with _ | inner
  · dsimp only
    rw [hk1]
    dsimp only [Option.getD]
    by_cases h2 : k2 = K2 <;> simp [h2, mlookup, removeUID]
  · dsimp only [Option.getD]
    rcases hk2 : mlookup inner K2 with _ | l
    · by_cases hie : inner = []
      · rw [if_pos hie]
        rw [show mlookup (merase idx K1) K1 = none from by
          rw [mlookup_merase]; exact if_pos rfl]
        dsimp only [Option.getD]
        by_cases h2 : k2 = K2
        · rw [if_pos h2, h2]
          simp [mlookup, removeUID]
        · rw [if_neg h2, hie]
      · rw [if_neg hie]
        rw [mlookup_mset_self]
        dsimp only [Option.getD]
        by_cases h2 : k2 = K2
        · rw [if_pos h2, h2]
          simp [mlookup, removeUID, hk2]
        · rw [if_neg h2]
    · dsimp only [Option.getD]
      by_cases hl : removeUID l u = []
      · rw [if_pos hl]
        by_cases hie : merase inner K2 = []
        · rw [if_pos hie]
          rw [show mlookup (merase idx K1) K1 = none from by
            rw [mlookup_merase]; exact if_pos rfl]
          dsimp only [Option.getD]
          by_cases h2 : k2 = K2
          · rw [if_pos h2, h2]
            simp [mlookup, hl]
          · rw [if_neg h2]
            rw [merase_eq_nil_lookup inner K2 k2 hie h2]
            simp [mlookup]
        · rw [if_neg hie]
          rw [mlookup_mset_self]
          dsimp only [Option.getD]
          by_cases h2 : k2 = K2
          · rw [if_pos h2, h2]
            rw [show mlookup (merase inner K2) K2 = none from by
              rw [mlookup_merase]; exact if_pos rfl]
            simp [hl]
          · rw [if_neg h2]
            rw [show mlookup (merase inner K2) k2 = mlookup inner k2 from by
              rw [mlookup_merase]; exact if_neg (fun hh => h2 hh.symm)]
      · rw [if_neg hl]
        rw [if_neg (mset_ne_nil inner K2 (removeUID l u))]
        rw [mlookup_mset_self]
        dsimp only [Option.getD]
        by_cases h2 : k2 = K2
        · rw [if_pos h2, h2, mlookup_mset_self]
        · rw [if_neg h2]
          rw [mlookup_mset_ne _ _ _ _ (fun hh => h2 hh.symm)]

theorem removeRelease_read (idx : List (String × List UID)) (rel : String)
    (u : UID) (r : String) :
    indexRead1 (removeRelease idx rel u) r
      = if r = rel then removeUID (indexRead1 idx rel) u
        else indexRead1 idx r := by
  unfold indexRead1 removeRelease
  rcases hk : mlookup idx rel with _ | l
  · by_cases h2 : r = rel
    · rw [if_pos h2, h2, hk]
      simp [removeUID]
    · rw [if_neg h2]
  · dsimp only [Option.getD]
    by_cases hl : removeUID l u = []
    · rw [if_pos hl]
      by_cases h2 : r = rel
      · rw [if_pos h2, h2]
        rw [show mlookup (merase idx rel) rel = none from by
          rw [mlookup_merase]; exact if_pos rfl]
        simp [hl]
      · rw [if_neg h2]
        rw [show mlookup (merase idx rel) r = mlookup idx r from by
          rw [mlookup_merase]; exact if_neg (fun hh => h2 hh.symm)]
    · rw [if_neg hl]
      by_cases h2 : r = rel
      · rw [if_pos h2, h2, mlookup_mset_self]
      · rw [if_neg h2]
        rw [mlookup_mset_ne _ _ _ _ (fun hh => h2 hh.symm)]

theorem mem_indexRead2 (idx : List (String × List (String × List UID)))
    (k1 k2 : String) (u : UID) (h : u ∈ indexRead2 idx k1 k2) :
    ∃ inner l, mlookup idx k1 = some inner ∧ mlookup inner k2 = some l ∧
      u ∈ l := by
  unfold indexRead2 at h
  rcases hk1 : mlookup idx k1 with _ | inner
  · rw [hk1] at h
    dsimp only [Option.getD, mlookup] at h
    exact absurd h (List.not_mem_nil u)
  · rw [hk1] at h
    dsimp only [Option.getD] at h
    rcases hk2 : mlookup inner k2 with _ | l
    · rw [hk2] at h
      dsimp only [Option.getD] at h
      exact absurd h (List.not_mem_nil u)
    · rw [hk2] at h
      dsimp only [Option.getD] at h
      exact ⟨inner, l, rfl, hk2, h⟩

theorem mem_indexRead1 (idx : List (String × List UID)) (k : String)
    (u : UID) (h : u ∈ indexRead1 idx k) :
    ∃ l, mlookup idx k = some l ∧ u ∈ l := by
  unfold indexRead1 at h
  rcases hk : mlookup idx k with _ | l
  · rw [hk] at h
    dsimp only [Option.getD] at h
    exact absurd h (List.not_mem_nil u)
  · rw [hk] at h
    dsimp only [Option.getD] at h
    exact ⟨l, rfl, h⟩

theorem labelFoldRemove_clean (u : UID) :
    ∀ (l : List (String × String))
      (idx : List (String × List (String × List UID))),
      (∀ k1 k2, u ∈ indexRead2 idx k1 k2 → (k1, k2) ∈ l) →
      (∀ lb ∈ l, (indexRead2 idx lb.1 lb.2).count u ≤ 1) →
      (l.map Prod.fst).Nodup →
      ∀ k1 k2, u ∉ indexRead2
        (l.foldl (fun acc kv => removeTwoLevel acc kv.1 kv.2 u) idx) k1 k2 := by
  intro l
  induction l with
  | nil =>
    intro idx hloc _ _ k1 k2 hmem
    exact absurd (hloc k1 k2 hmem) (by simp)
  | cons hd tl ih =>
    intro idx hloc hcnt hnd k1 k2 hmem
    rw [List.map_cons] at hnd
    obtain ⟨hnm, hndtl⟩ := List.nodup_cons.mp hnd
    rw [List.foldl_cons] at hmem
    refine ih (removeTwoLevel idx hd.1 hd.2 u) ?_ ?_ hndtl k1 k2 hmem
    · intro a1 a2 hmem2
      by_cases ha : a1 = hd.1
      · subst ha
        rw [removeTwoLevel_read_self] at hmem2
        by_cases hb : a2 = hd.2
        · rw [if_pos hb] at hmem2
          exact absurd hmem2 (notmem_removeUID_of_count_le_one _ _
            (hcnt hd (List.mem_cons_self hd tl)))
        · rw [if_neg hb] at hmem2
          rcases List.mem_cons.mp (hloc hd.1 a2 hmem2) with hh | hh
          · exact absurd (congrArg Prod.snd hh) hb
          · exact hh
      · rw [removeTwoLevel_read_ne _ _ _ _ _ _ ha] at hmem2
        rcases List.mem_cons.mp (hloc a1 a2 hmem2) with hh | hh
        · exact absurd (congrArg Prod.fst hh) ha
        · exact hh
    · intro lb hlb
      have hne : lb.1 ≠ hd.1 := by
        intro hh
        exact hnm (by rw [← hh]; exact List.mem_map_of_mem Prod.fst hlb)
      rw [removeTwoLevel_read_ne _ _ _ _ _ _ hne]
      exact hcnt lb (List.mem_cons_of_mem hd hlb)

theorem removeFold1_isSome (u : UID) (l : List (UID × Edge)) :
    ∀ (acc : List (UID × Node)) (w : UID),
      (mlookup (l.foldl (fun acc kv =>
        match mlookup acc kv.2.toUID with
        | some toNode => mset acc kv.2.toUID
            { toNode with incomingEdges := merase toNode.incomingEdges u }
        | none => acc) acc) w).isSome = (mlookup acc w).isSome := by
  induction l with
  | nil => intro acc w; rfl
  | cons hd tl ih =>
    intro acc w
    rw [List.foldl_cons, ih]
    rcases ht : mlookup acc hd.2.toUID with _ | toNode
    · rfl
    · exact mset_isSome_of_present _ _ _ _ (by simp [ht])

theorem removeFold2_isSome (u : UID) (l : List (UID × Edge)) :
    ∀ (acc : List (UID × Node)) (w : UID),
      (mlookup (l.foldl (fun acc kv =>
        match mlookup acc kv.2.fromUID with
        | some fromNode => mset acc kv.2.fromUID
            { fromNode with outgoingEdges := merase fromNode.outgoingEdges u }
        | none => acc) acc) w).isSome = (mlookup acc w).isSome := by
  induction l with
  | nil => intro acc w; rfl
  | cons hd tl ih =>
    intro acc w
    rw [List.foldl_cons, ih]
    rcases ht : mlookup acc hd.2.fromUID with _ | fromNode
    · rfl
    · exact mset_isSome_of_present _ _ _ _ (by simp [ht])

theorem removeFold1_evo (u : UID) (l : List (UID × Edge)) :
    ∀ (acc : List (UID × Node)) (w : UID) (n2 : Node),
      mlookup (l.foldl (fun acc kv =>
        match mlookup acc kv.2.toUID with
        | some toNode => mset acc kv.2.toUID
            { toNode with incomingEdges := merase toNode.incomingEdges u }
        | none => acc) acc) w = some n2 →
      ∃ n0, mlookup acc w = some n0 ∧ n2.outgoingEdges = n0.outgoingEdges ∧
        (n2.incomingEdges = n0.incomingEdges ∨
         n2.incomingEdges = merase n0.incomingEdges u) := by
  induction l with
  | nil => intro acc w n2 h; exact ⟨n2, h, rfl, Or.inl rfl⟩
  | cons hd tl ih =>
    intro acc w n2 h
    rw [List.foldl_cons] at h
    obtain ⟨n1, hn1, hout, hinc⟩ := ih _ w n2 h
    rcases ht : mlookup acc hd.2.toUID with _ | toNode
    · rw [ht] at hn1
      dsimp only at hn1
      exact ⟨n1, hn1, hout, hinc⟩
    · rw [ht] at hn1
      dsimp only at hn1
      by_cases hw : hd.2.toUID = w
      · subst hw
        rw [mlookup_mset_self] at hn1
        injection hn1 with hn1
        subst hn1
        refine ⟨toNode, ht, hout, ?_⟩
        rcases hinc with hinc | hinc
        · exact Or.inr hinc
        · rw [show ({ toNode with
              incomingEdges := merase toNode.incomingEdges u } : Node).incomingEdges
              = merase toNode.incomingEdges u from rfl, merase_merase] at hinc
          exact Or.inr hinc
      · rw [mlookup_mset_ne _ _ _ _ hw] at hn1
        exact ⟨n1, hn1, hout, hinc⟩

theorem removeFold2_evo (u : UID) (l : List (UID × Edge)) :
    ∀ (acc : List (UID × Node)) (w : UID) (n2 : Node),
      mlookup (l.foldl (fun acc kv =>
        match mlookup acc kv.2.fromUID with
        | some fromNode => mset acc kv.2.fromUID
            { fromNode with outgoingEdges := merase fromNode.outgoingEdges u }
        | none => acc) acc) w = some n2 →
      ∃ n0, mlookup acc w = some n0 ∧ n2.incomingEdges = n0.incomingEdges ∧
        (n2.outgoingEdges = n0.outgoingEdges ∨
         n2.outgoingEdges = merase n0.outgoingEdges u) := by
  induction l with
  | nil => intro acc w n2 h; exact ⟨n2, h, rfl, Or.inl rfl⟩
  | cons hd tl ih =>
    intro acc w n2 h
    rw [List.foldl_cons] at h
    obtain ⟨n1, hn1, hinc, hout⟩ := ih _ w n2 h
    rcases ht : mlookup acc hd.2.fromUID with _ | fromNode
    · rw [ht] at hn1
      dsimp only at hn1
      exact ⟨n1, hn1, hinc, hout⟩
    · rw [ht] at hn1
      dsimp only at hn1
      by_cases hw : hd.2.fromUID = w
      · subst hw
        rw [mlookup_mset_self] at hn1
        injection hn1 with hn1
        subst hn1
        refine ⟨fromNode, ht, hinc, ?_⟩
        rcases hout with hout | hout
        · exact Or.inr hout
        · rw [show ({ fromNode with
              outgoingEdges := merase fromNode.outgoingEdges u } : Node).outgoingEdges
              = merase fromNode.outgoingEdges u from rfl, merase_merase] at hout
          exact Or.inr hout
      · rw [mlookup_mset_ne _ _ _ _ hw] at hn1
        exact ⟨n1, hn1, hinc, hout⟩

theorem removeFold1_preserve (u : UID) (l : List (UID × Edge)) :
    ∀ (acc : List (UID × Node)) (w : UID),
      (∀ n2, mlookup acc w = some n2 → mlookup n2.incomingEdges u = none) →
      ∀ n2, mlookup (l.foldl (fun acc kv =>
        match mlookup acc kv.2.toUID with
        | some toNode => mset acc kv.2.toUID
            { toNode with incomingEdges := merase toNode.incomingEdges u }
        | none => acc) acc) w = some n2 →
        mlookup n2.incomingEdges u = none := by
  induction l with
  | nil => intro acc w h n2 hn; exact h n2 hn
  | cons hd tl ih =>
    intro acc w h n2 hn
    rw [List.foldl_cons] at hn
    refine ih _ w ?_ n2 hn
    intro n3 hn3
    rcases ht : mlookup acc hd.2.toUID with _ | toNode
    · rw [ht] at hn3
      dsimp only at hn3
      exact h n3 hn3
    · rw [ht] at hn3
      dsimp only at hn3
      by_cases hw : hd.2.toUID = w
      · subst hw
        rw [mlookup_mset_self] at hn3
        injection hn3 with hn3
        subst hn3
        show mlookup (merase toNode.incomingEdges u) u = none
        rw [mlookup_merase]
        exact if_pos rfl
      · rw [mlookup_mset_ne _ _ _ _ hw] at hn3
        exact h n3 hn3

theorem removeFold2_preserve (u : UID) (l : List (UID × Edge)) :
    ∀ (acc : List (UID × Node)) (w : UID),
      (∀ n2, mlookup acc w = some n2 → mlookup n2.outgoingEdges u = none) →
      ∀ n2, mlookup (l.foldl (fun acc kv =>
        match mlookup acc kv.2.fromUID with
        | some fromNode => mset acc kv.2.fromUID
            { fromNode with outgoingEdges := merase fromNode.outgoingEdges u }
        | none => acc) acc) w = some n2 →
        mlookup n2.outgoingEdges u = none := by
  induction l with
  | nil => intro acc w h n2 hn; exact h n2 hn
  | cons hd tl ih =>
    intro acc w h n2 hn
    rw [List.foldl_cons] at hn
    refine ih _ w ?_ n2 hn
    intro n3 hn3
    rcases ht : mlookup acc hd.2.fromUID with _ | fromNode
    · rw [ht] at hn3
      dsimp only at hn3
      exact h n3 hn3
    · rw [ht] at hn3
      dsimp only at hn3
      by_cases hw : hd.2.fromUID = w
      · subst hw
        rw [mlookup_mset_self] at hn3
        injection hn3 with hn3
        subst hn3
        show mlookup (merase fromNode.outgoingEdges u) u = none
        rw [mlookup_merase]
        exact if_pos rfl
      · rw [mlookup_mset_ne _ _ _ _ hw] at hn3
        exact h n3 hn3

theorem removeFold2_preserve_incoming (u : UID) (l : List (UID × Edge)) :
    ∀ (acc : List (UID × Node)) (w : UID),
      (∀ n2, mlookup acc w = some n2 → mlookup n2.incomingEdges u = none) →
      ∀ n2, mlookup (l.foldl (fun acc kv =>
        match mlookup acc kv.2.fromUID with
        | some fromNode => mset acc kv.2.fromUID
            { fromNode with outgoingEdges := merase fromNode.outgoingEdges u }
        | none => acc) acc) w = some n2 →
        mlookup n2.incomingEdges u = none := by
  induction l with
  | nil => intro acc w h n2 hn; exact h n2 hn
  | cons hd tl ih =>
    intro acc w h n2 hn
    rw [List.foldl_cons] at hn
    refine ih _ w ?_ n2 hn
    intro n3 hn3
    rcases ht : mlookup acc hd.2.fromUID with _ | fromNode
    · rw [ht] at hn3
      dsimp only at hn3
      exact h n3 hn3
    · rw [ht] at hn3
      dsimp only at hn3
      by_cases hw : hd.2.fromUID = w
      · subst hw
        rw [mlookup_mset_self] at hn3
        injection hn3 with hn3
        subst hn3
        show mlookup fromNode.incomingEdges u = none
        exact h fromNode ht
      · rw [mlookup_mset_ne _ _ _ _ hw] at hn3
        exact h n3 hn3

theorem removeFold1_clean (u : UID) (l : List (UID × Edge)) :
    ∀ (acc : List (UID × Node)) (w : UID), (∃ kv ∈ l, kv.2.toUID = w) →
      (mlookup acc w).isSome = true →
      ∀ n2, mlookup (l.foldl (fun acc kv =>
        match mlookup acc kv.2.toUID with
        | some toNode => mset acc kv.2.toUID
            { toNode with incomingEdges := merase toNode.incomingEdges u }
        | none => acc) acc) w = some n2 →
        mlookup n2.incomingEdges u = none := by
  induction l with
  | nil =>
    rintro acc w ⟨kv, hkv, _⟩ _
    exact absurd hkv (List.not_mem_nil kv)
  | cons hd tl ih =>
    rintro acc w ⟨kv, hkv, hwkv⟩ hsome n2 hn
    rw [List.foldl_cons] at hn
    rcases List.mem_cons.mp hkv with hh | hh
    · subst hh
      refine removeFold1_preserve u tl _ w ?_ n2 hn
      intro n3 hn3
      rcases ht : mlookup acc kv.2.toUID with _ | toNode
      · rw [hwkv] at ht
        rw [ht] at hsome
        simp at hsome
      · rw [ht] at hn3
        dsimp only at hn3
        by_cases hw2 : kv.2.toUID = w
        · subst hw2
          rw [mlookup_mset_self] at hn3
          injection hn3 with hn3
          subst hn3
          show mlookup (merase toNode.incomingEdges u) u = none
          rw [mlookup_merase]
          exact if_pos rfl
        · exact absurd hwkv hw2
    · refine ih _ w ⟨kv, hh, hwkv⟩ ?_ n2 hn
      dsimp only
      rcases ht : mlookup acc hd.2.toUID with _ | toNode
      · exact hsome
      · rw [mset_isSome_of_present _ _ _ _ (by simp [ht])]
        exact hsome

theorem removeFold2_clean (u : UID) (l : List (UID × Edge)) :
    ∀ (acc : List (UID × Node)) (w : UID), (∃ kv ∈ l, kv.2.fromUID = w) →
      (mlookup acc w).isSome = true →
      ∀ n2, mlookup (l.foldl (fun acc kv =>
        match mlookup acc kv.2.fromUID with
        | some fromNode => mset acc kv.2.fromUID
            { fromNode with outgoingEdges := merase fromNode.outgoingEdges u }
        | none => acc) acc) w = some n2 →
        mlookup n2.outgoingEdges u = none := by
  induction l with
  | nil =>
    rintro acc w ⟨kv, hkv, _⟩ _
    exact absurd hkv (List.not_mem_nil kv)
  | cons hd tl ih =>
    rintro acc w ⟨kv, hkv, hwkv⟩ hsome n2 hn
    rw [List.foldl_cons] at hn
    rcases List.mem_cons.mp hkv with hh | hh
    · subst hh
      refine removeFold2_preserve u tl _ w ?_ n2 hn
      intro n3 hn3
      rcases ht : mlookup acc kv.2.fromUID with _ | fromNode
      · rw [hwkv] at ht
        rw [ht] at hsome
        simp at hsome
      · rw [ht] at hn3
        dsimp only at hn3
        by_cases hw2 : kv.2.fromUID = w
        · subst hw2
          rw [mlookup_mset_self] at hn3
          injection hn3 with hn3
          subst hn3
          show mlookup (merase fromNode.outgoingEdges u) u = none
          rw [mlookup_merase]
          exact if_pos rfl
        · exact absurd hwkv hw2
    · refine ih _ w ⟨kv, hh, hwkv⟩ ?_ n2 hn
      dsimp only
      rcases ht : mlookup acc hd.2.fromUID with _ | fromNode
      · exact hsome
      · rw [mset_isSome_of_present _ _ _ _ (by simp [ht])]
        exact hsome

theorem removeNode_nodes_shape (g : Graph) (u : UID) (node : Node)
    (hu : mlookup g.nodes u = some node) :
    (removeNode g u).nodes
      = merase (node.incomingEdges.foldl (fun acc kv =>
          match mlookup acc kv.2.fromUID with
          | some fromNode => mset acc kv.2.fromUID
              { fromNode with outgoingEdges := merase fromNode.outgoingEdges u }
          | none => acc)
          (node.outgoingEdges.foldl (fun acc kv =>
            match mlookup acc kv.2.toUID with
            | some toNode => mset acc kv.2.toUID
                { toNode with incomingEdges := merase toNode.incomingEdges u }
            | none => acc) g.nodes)) u := by
  unfold removeNode
  rw [hu]
  rfl

theorem removeNode_byNK_shape (g : Graph) (u : UID) (node : Node)
    (hu : mlookup g.nodes u = some node) :
    (removeNode g u).byNamespaceKind
      = removeTwoLevel g.byNamespaceKind (nsKeyOf node) node.kind node.uid := by
  unfold removeNode
  rw [hu]
  rfl

theorem removeNode_byRel_shape (g : Graph) (u : UID) (node : Node)
    (hu : mlookup g.nodes u = some node) :
    (removeNode g u).byHelmRelease
      = if node.helmRelease ≠ "" then
          removeRelease g.byHelmRelease node.helmRelease node.uid
        else g.byHelmRelease := by
  unfold removeNode
  rw [hu]
  rfl

theorem removeNode_byLabel_shape (g : Graph) (u : UID) (node : Node)
    (hu : mlookup g.nodes u = some node) :
    (removeNode g u).byLabel
      = node.labels.foldl (fun acc kv => removeTwoLevel acc kv.1 kv.2 node.uid)
          g.byLabel := by
  unfold removeNode
  rw [hu]
  rfl

end Astrolabe
